import Mathlib

/-!
Verification of the xStruct layout compiler and codec engine
(`src/services/struct.service.ts`, class `Struct`).

The TypeScript source is shallowly embedded:
* byte buffers are `List Nat` with every entry `< 256`; an out-of-bounds
  indexed read (`buffer[i]` giving `undefined`, which the bit operations of
  `readBitField` coerce to `0`) is modelled by `byteAt` with default `0`,
  and an out-of-bounds indexed write (a silent no-op on a `Uint8Array`) is
  modelled by `List.set`, which is the identity out of bounds;
* JavaScript runtime values are the inductive `JSVal`; strings are carried
  as their UTF-8 byte sequences, which is what the codec reads and writes;
* the resolved field map built by `parseSchema` is the inductive `RSchema`,
  an ordered association list of resolved fields (a JS object iterated by
  `for...in` in insertion order); it is mutually inductive with `RField`
  because a nested `Struct` field carries its sub-layout by value;
* the bounds-checked `Buffer` read/write methods of Node (`writeUInt16LE`,
  `readUInt16LE`, `Buffer.prototype.set`, ...) are modelled with explicit
  range checks returning `Except` errors, following their documented
  behaviour for Node >= 18 (the `engines` requirement of the package);
* JavaScript 32-bit bitwise operators (`<<`, `&`, `|`, `~`) are modelled on
  the unsigned 32-bit patterns of the operands (`toUint32`); this agrees
  with JS for all the operand ranges reachable here (masks below `2^32`).
-/

namespace XStruct

/-- The fourteen primitive type tokens of `parsePrimitiveField`. -/
inductive Prim where
  | Int8 | UInt8
  | Int16LE | Int16BE | UInt16LE | UInt16BE
  | Int32LE | Int32BE | UInt32LE | UInt32BE
  | BigInt64LE | BigInt64BE | BigUInt64LE | BigUInt64BE
deriving DecidableEq, Repr

/-- Byte size of a primitive, the `typeSizes` table of `parsePrimitiveField`. -/
def Prim.byteSize : Prim → Nat
  | .Int8 | .UInt8 => 1
  | .Int16LE | .Int16BE | .UInt16LE | .UInt16BE => 2
  | .Int32LE | .Int32BE | .UInt32LE | .UInt32BE => 4
  | .BigInt64LE | .BigInt64BE | .BigUInt64LE | .BigUInt64BE => 8

/-- Signedness, as encoded in the token name (`Int...` vs `UInt...`). -/
def Prim.signed : Prim → Bool
  | .Int8 | .Int16LE | .Int16BE | .Int32LE | .Int32BE | .BigInt64LE | .BigInt64BE => true
  | _ => false

/-- Big-endian byte order, the `BE` suffix of the token. -/
def Prim.bigEndian : Prim → Bool
  | .Int16BE | .UInt16BE | .Int32BE | .UInt32BE | .BigInt64BE | .BigUInt64BE => true
  | _ => false

/-- The `field.type.includes('Big')` test of `writeField`: 64-bit fields
use BigInt values. -/
def Prim.isBig : Prim → Bool
  | .BigInt64LE | .BigInt64BE | .BigUInt64LE | .BigUInt64BE => true
  | _ => false

/-- The token string of a primitive, used in error messages. -/
def Prim.tokenStr : Prim → String
  | .Int8 => "Int8" | .UInt8 => "UInt8"
  | .Int16LE => "Int16LE" | .Int16BE => "Int16BE"
  | .UInt16LE => "UInt16LE" | .UInt16BE => "UInt16BE"
  | .Int32LE => "Int32LE" | .Int32BE => "Int32BE"
  | .UInt32LE => "UInt32LE" | .UInt32BE => "UInt32BE"
  | .BigInt64LE => "BigInt64LE" | .BigInt64BE => "BigInt64BE"
  | .BigUInt64LE => "BigUInt64LE" | .BigUInt64BE => "BigUInt64BE"

/-- JavaScript runtime values as far as the codec observes them.  Numbers
are modelled as integers (the codec only handles integral values), strings
as their UTF-8 byte sequences. -/
inductive JSVal where
  | num (i : Int)
  | big (i : Int)
  | str (bytes : List Nat)
  | obj (fields : List (String × JSVal))
  | nullV
  | undef
  | boolV (b : Bool)
  | fn (name : String)

/-- The JavaScript `typeof` operator on a `JSVal` (note `typeof null` is
`"object"`). -/
def JSVal.typeofStr : JSVal → String
  | .num _ => "number"
  | .big _ => "bigint"
  | .str _ => "string"
  | .obj _ => "object"
  | .nullV => "object"
  | .undef => "undefined"
  | .boolV _ => "boolean"
  | .fn _ => "function"

/-- JavaScript truthiness of a value. -/
def JSVal.truthy : JSVal → Bool
  | .num i => i != 0
  | .big i => i != 0
  | .str s => !s.isEmpty
  | .obj _ => true
  | .nullV => false
  | .undef => false
  | .boolV b => b
  | .fn _ => true

/-- The `!data || typeof data !== 'object'` rejection test of `toBuffer`:
only (truthy) objects pass. -/
def JSVal.isObj : JSVal → Bool
  | .obj _ => true
  | _ => false

/-- The string-keyed properties every plain object literal inherits from
`Object.prototype`.  An indexed lookup such as `typeSizes[token]`, and the
`in` operator, consult the prototype chain, so these names are found — and
yield a truthy inherited value — even when the object has no such own
entry. -/
def protoKeys : List String :=
  ["constructor", "hasOwnProperty", "isPrototypeOf", "propertyIsEnumerable",
   "toLocaleString", "toString", "valueOf",
   "__defineGetter__", "__defineSetter__", "__lookupGetter__", "__lookupSetter__",
   "__proto__"]

/-- The value `data[name]` yields for one of the `protoKeys` when `data`
has no own entry `name`: an inherited method of `Object.prototype`, except
for `__proto__`, whose accessor yields the prototype object itself — an
object with no relevant own entries, modelled as the empty record (its
member lookups again fall through to `protoKeys`). -/
def protoMember (name : String) : JSVal :=
  if name == "__proto__" then .obj [] else .fn name

mutual
/-- A resolved schema field (`SchemaFieldType`): the output of the layout
compiler.  For `prim`/`strF`/`nested` the `size` is in bytes, for `bits`
it is in bits; `offset` is always a byte offset; `position` is the
LSB-relative starting bit of a bitfield inside its byte.  A nested field
carries the sub-layout's resolved schema and total size by value. -/
inductive RField where
  | prim (p : Prim) (size offset : Nat)
  | strF (size offset : Nat)
  | bits (signed : Bool) (size offset position : Nat)
  | nested (sub : RSchema) (subSize : Nat) (offset : Nat)

/-- The resolved field map (`SchemaInterface`): an ordered association of
field names to resolved fields, in declaration order. -/
inductive RSchema where
  | nil
  | cons (name : String) (f : RField) (rest : RSchema)
end

/-- The resolved field map as a plain association list (for stating
properties of the layout). -/
def RSchema.toList : RSchema → List (String × RField)
  | .nil => []
  | .cons name f rest => (name, f) :: rest.toList

/-- The declared field names, in order. -/
def RSchema.names : RSchema → List String
  | .nil => []
  | .cons name _ rest => name :: rest.names

/-- A compiled `Struct`: the resolved field map plus the total byte size. -/
structure StructModel where
  schema : RSchema
  size : Nat

/-- An input schema entry (`StructSchemaInterface` values): a type token
string, a `{ type: 'string', size }` descriptor, or a compiled `Struct`. -/
inductive FieldDesc where
  | token (s : String)
  | stringField (size : Nat)
  | nestedStruct (m : StructModel)

/-- Result of `parseField` (`ParseFieldInterface`). -/
inductive ParsedField where
  | bits (signed : Bool) (size : Nat)
  | prim (p : Prim)
  | strP (size : Nat)
  | nestedP (m : StructModel)

/-- Decimal value of a digit string (`parseInt(..., 10)` on a `\d+` match). -/
def digitsVal (cs : List Char) : Nat :=
  cs.foldl (fun a c => a * 10 + (c.toNat - 48)) 0

/-- All characters are decimal digits (`\d`). -/
def allDigits (cs : List Char) : Bool := cs.all (fun c => c.isDigit)

/-- Splits a character list of the shape `Int8:rest` / `UInt8:rest`,
the anchored alternative-plus-colon part of the `parseBitField` regular
expression `^(Int8|UInt8):(\d+)$`. -/
def stripColonForm : List Char → Option (Bool × List Char)
  | 'I' :: 'n' :: 't' :: '8' :: ':' :: rest => some (true, rest)
  | 'U' :: 'I' :: 'n' :: 't' :: '8' :: ':' :: rest => some (false, rest)
  | _ => none

/-- `parseBitField`: match `^(Int8|UInt8):(\d+)$` and read the width, or
throw `Invalid bit field format`.  Returns (signed, width-in-bits). -/
def parseBitField (s : String) : Except String (Bool × Nat) :=
  match stripColonForm s.data with
  | some (sgn, ds) =>
      if ds.length > 0 && allDigits ds then .ok (sgn, digitsVal ds)
      else .error ("Invalid bit field format: " ++ s)
  | none => .error ("Invalid bit field format: " ++ s)

/-- The supported primitive token names, keys of the `typeSizes` table. -/
def primNames : List (String × Prim) :=
  [("Int8", .Int8), ("UInt8", .UInt8),
   ("Int16LE", .Int16LE), ("Int16BE", .Int16BE),
   ("UInt16LE", .UInt16LE), ("UInt16BE", .UInt16BE),
   ("Int32LE", .Int32LE), ("Int32BE", .Int32BE),
   ("UInt32LE", .UInt32LE), ("UInt32BE", .UInt32BE),
   ("BigInt64LE", .BigInt64LE), ("BigInt64BE", .BigInt64BE),
   ("BigUInt64LE", .BigUInt64LE), ("BigUInt64BE", .BigUInt64BE)]

/-- `parsePrimitiveField`: look the token up in `typeSizes`, or throw
`Unsupported primitive type`.  The source holds `typeSizes` in a plain
object literal, so the `if (typeSizes[type])` guard also finds the truthy
inherited members of `Object.prototype` (`protoKeys`): for those twelve
names the source does *not* throw and instead uses the inherited function
as a byte size, which poisons the `parseSchema` accumulator into a
non-numeric value by string concatenation.  Such a garbage layout has no
representation in this embedding, so the model keeps the error branch for
those names and every verified property about layout construction keeps
them outside its domain (see `badTokenB`). -/
def parsePrimitiveField (s : String) : Except String Prim :=
  match primNames.lookup s with
  | some p => .ok p
  | none => .error ("Unsupported primitive type: " ++ s)

/-- The `field.includes(':')` test of `parseField`. -/
def strContainsColon (s : String) : Bool := s.data.contains ':'

/-- `parseField`: a `Struct` value is taken as a nested layout; a string
token is a bitfield if it contains a colon, a primitive otherwise; a
`{ type: 'string', size }` object is returned as-is. -/
def parseField : FieldDesc → Except String ParsedField
  | .nestedStruct m => .ok (.nestedP m)
  | .stringField n => .ok (.strP n)
  | .token s =>
      if strContainsColon s then
        match parseBitField s with
        | .ok (sgn, w) => .ok (.bits sgn w)
        | .error e => .error e
      else
        match parsePrimitiveField s with
        | .ok p => .ok (.prim p)
        | .error e => .error e

/-- The single left-to-right pass of `parseSchema`, with the mutable
`accumulator` `{bits, bytes}` made explicit; the resolved fields are
produced in declaration order.  The bitfield branch is `processBitfield`;
the non-bitfield branch closes an open bit run, records the field at the
current byte offset and advances by its byte size; the final
`if (accumulator.bits > 0) bytes += 1` closes a trailing bit run. -/
def parseSchemaAux : List (String × FieldDesc) → Nat → Nat →
    Except String (RSchema × Nat)
  | [], bits, bytes => .ok (.nil, if bits > 0 then bytes + 1 else bytes)
  | (name, d) :: rest, bits, bytes =>
    match parseField d with
    | .error e => .error e
    | .ok (.bits sgn w) =>
        let bytes1 := if bits + w > 8 then bytes + 1 else bytes
        let bits1 := if bits + w > 8 then 0 else bits
        match parseSchemaAux rest (bits1 + w) bytes1 with
        | .error e => .error e
        | .ok (s, total) => .ok (.cons name (.bits sgn w bytes1 bits1) s, total)
    | .ok (.prim p) =>
        let bytes1 := if bits > 0 then bytes + 1 else bytes
        match parseSchemaAux rest 0 (bytes1 + p.byteSize) with
        | .error e => .error e
        | .ok (s, total) => .ok (.cons name (.prim p p.byteSize bytes1) s, total)
    | .ok (.strP n) =>
        let bytes1 := if bits > 0 then bytes + 1 else bytes
        match parseSchemaAux rest 0 (bytes1 + n) with
        | .error e => .error e
        | .ok (s, total) => .ok (.cons name (.strF n bytes1) s, total)
    | .ok (.nestedP m) =>
        let bytes1 := if bits > 0 then bytes + 1 else bytes
        match parseSchemaAux rest 0 (bytes1 + m.size) with
        | .error e => .error e
        | .ok (s, total) => .ok (.cons name (.nested m.schema m.size bytes1) s, total)

/-- The `Struct` constructor: run `parseSchema` and keep the resolved
field map and the total size. -/
def parseStruct (descs : List (String × FieldDesc)) : Except String StructModel :=
  match parseSchemaAux descs 0 0 with
  | .ok (fields, total) => .ok ⟨fields, total⟩
  | .error e => .error e

/-! ## The codec engine -/

/-- Indexed buffer read `buffer[i]`; out of bounds it yields `undefined`,
which the shift in `readBitField` coerces to `0`. -/
def byteAt (buf : List Nat) (i : Nat) : Nat := buf.getD i 0

/-- The unsigned 32-bit pattern of an integer, i.e. the bit pattern JS
bitwise operators act on after `ToInt32`. -/
def toUint32 (v : Int) : Nat := (v % 4294967296).toNat

/-- `BigInt.asIntN`: the two's-complement interpretation of the low `w`
bits of `v`. -/
def asIntN (w : Nat) (v : Int) : Int :=
  let m := v % ((2 : Int) ^ w)
  if m < (2 : Int) ^ (w - 1) then m else m - (2 : Int) ^ w

/-- The `minBitValue` of `validateBitfieldValue`
(`type.startsWith('Int') ? -(1 << (size - 1)) : 0`). -/
def bitfieldMin (signed : Bool) (w : Nat) : Int :=
  if signed then -((2 : Int) ^ (w - 1)) else 0

/-- The `maxBitValue` of `validateBitfieldValue`
(`type.startsWith('Int') ? (1 << size - 1) - 1 : (1 << size) - 1`; note
`<<` binds looser than `-` in JS, so the signed bound is
`(1 << (size - 1)) - 1`).  The JS shifts agree with these powers of two
for every width the bitfield grammar admits. -/
def bitfieldMax (signed : Bool) (w : Nat) : Int :=
  if signed then (2 : Int) ^ (w - 1) - 1 else (2 : Int) ^ w - 1

/-- `processValueForBitfield`: signed values go through `BigInt.asIntN`,
unsigned values are returned unchanged. -/
def processValueForBitfield (signed : Bool) (w : Nat) (v : Int) : Int :=
  if signed then asIntN w v else v

/-- `applyBitmask`: clear the destination bit span of the byte with the
shifted mask and OR in the value shifted into position.  `~shiftedMask`
is the complement of the unsigned 32-bit pattern, i.e. XOR with
`2^32 - 1`; `value << bitPosition` acts on the 32-bit pattern of
`value`. -/
def applyBitmask (currentByte : Nat) (w : Nat) (v : Int) (pos : Nat) : Nat :=
  let mask : Nat := 2 ^ w - 1
  let shiftedMask : Nat := mask <<< pos
  let cleared : Nat := currentByte &&& (4294967295 ^^^ shiftedMask)
  let valueShifted : Nat := toUint32 (v * (2 : Int) ^ pos) &&& shiftedMask
  cleared ||| valueShifted

/-- `writeBitField`: validate the range, sign-process the value, and
read-modify-write the containing byte.  The store into the `Uint8Array`
keeps the low 8 bits of the computed byte; storing out of bounds is a
no-op (`List.set` out of range). -/
def writeBitFieldM (signed : Bool) (w off pos : Nat) (v : Int) (buf : List Nat) :
    Except String (List Nat) :=
  if v < bitfieldMin signed w ∨ v > bitfieldMax signed w then
    .error ("Value " ++ toString v ++ " does not fit within " ++ toString w ++
      " bits for type " ++ (if signed then "Int8" else "UInt8"))
  else
    let processed := processValueForBitfield signed w v
    let currentByte := byteAt buf off
    let nb := applyBitmask currentByte w processed pos
    .ok (buf.set off (nb % 256))

/-- `readBitField`: shift the containing byte right by the bit position,
mask to the field width, and sign-process the result. -/
def readBitFieldM (signed : Bool) (w off pos : Nat) (buf : List Nat) : Int :=
  let currentByte := byteAt buf off
  let value := (currentByte >>> pos) &&& (2 ^ w - 1)
  processValueForBitfield signed w (Int.ofNat value)

/-- Little-endian byte decomposition of a natural number into `n` bytes. -/
def leBytes : Nat → Nat → List Nat
  | 0, _ => []
  | n + 1, u => u % 256 :: leBytes n (u / 256)

/-- Little-endian recomposition of a byte list. -/
def bytesToNatLE : List Nat → Nat
  | [] => 0
  | b :: rest => b + 256 * bytesToNatLE rest

/-- Minimum value accepted by the Node `buffer.write<type>` method. -/
def primMin (p : Prim) : Int :=
  if p.signed then -((2 : Int) ^ (8 * p.byteSize - 1)) else 0

/-- Maximum value accepted by the Node `buffer.write<type>` method. -/
def primMax (p : Prim) : Int :=
  if p.signed then (2 : Int) ^ (8 * p.byteSize - 1) - 1 else (2 : Int) ^ (8 * p.byteSize) - 1

/-- Write a byte list into the buffer starting at `off`, one indexed
store per byte. -/
def writeBytesAt : List Nat → Nat → List Nat → List Nat
  | buf, _, [] => buf
  | buf, off, b :: bs => writeBytesAt (buf.set off b) (off + 1) bs

/-- The Node `buffer.write<type>(value, offset)` method selected by
`'write' + field.type`: bounds-checked on both the value range and the
offset (`ERR_OUT_OF_RANGE` otherwise), writing the two's-complement
little- or big-endian bytes of the value. -/
def writePrimM (p : Prim) (off : Nat) (v : Int) (buf : List Nat) :
    Except String (List Nat) :=
  if v < primMin p ∨ v > primMax p then
    .error ("The value of \"value\" is out of range for " ++ p.tokenStr)
  else if buf.length < off + p.byteSize then
    .error ("The value of \"offset\" is out of range for " ++ p.tokenStr)
  else
    let u : Nat := (v % ((2 : Int) ^ (8 * p.byteSize))).toNat
    let bytesLE := leBytes p.byteSize u
    .ok (writeBytesAt buf off (if p.bigEndian then bytesLE.reverse else bytesLE))

/-- The byte span `[off, off + n)` of the buffer, clamped to its length
(`buffer.subarray`). -/
def getBytes (buf : List Nat) (off n : Nat) : List Nat := (buf.drop off).take n

/-- The Node `buffer.read<type>(offset)` method selected by
`'read' + field.type`: bounds-checked (`ERR_OUT_OF_RANGE` on an
undersized buffer), decoding the bytes with the field's endianness and
sign. -/
def readPrimM (p : Prim) (off : Nat) (buf : List Nat) : Except String Int :=
  if buf.length < off + p.byteSize then
    .error ("Attempt to access memory outside buffer bounds for " ++ p.tokenStr)
  else
    let raw := getBytes buf off p.byteSize
    let u := bytesToNatLE (if p.bigEndian then raw.reverse else raw)
    .ok (if p.signed then asIntN (8 * p.byteSize) (Int.ofNat u) else Int.ofNat u)

/-- Strip a trailing run of NUL bytes (`.replace(/\x00+$/, '')`). -/
def dropTrailingZeros (bs : List Nat) : List Nat :=
  (bs.reverse.dropWhile (fun b => b == 0)).reverse

/-- `buffer.write(string, offset, size)`: write at most `size` bytes of
the string, truncated at the end of the buffer. -/
def strWriteM (off sz : Nat) (sbytes : List Nat) (buf : List Nat) :
    Except String (List Nat) :=
  if buf.length < off then .error "The value of \"offset\" is out of range"
  else .ok (writeBytesAt buf off (sbytes.take (min sz (buf.length - off))))

/-- `buffer.toString('utf8', off, off + sz)` followed by the trailing-NUL
strip of `readField`. -/
def strReadM (off sz : Nat) (buf : List Nat) : List Nat :=
  dropTrailingZeros (getBytes buf off sz)

/-- `writeField` for a primitive: a `Big...` field requires a BigInt
value, any other primitive a number value (`TypeError` otherwise), then
write through the corresponding buffer method at the field's offset. -/
def writeFieldM (p : Prim) (off : Nat) (v : JSVal) (buf : List Nat) :
    Except String (List Nat) :=
  if p.isBig then
    match v with
    | .big i => writePrimM p off i buf
    | _ => .error ("Expected a BigInt for field \"" ++ p.tokenStr ++
        "\", but received " ++ v.typeofStr)
  else
    match v with
    | .num i => writePrimM p off i buf
    | _ => .error ("Expected a number for field \"" ++ p.tokenStr ++
        "\", but received " ++ v.typeofStr)

mutual
/-- Serialization of one schema field that is present in the data object,
as performed inside the `toBuffer` loop.  A nested `Struct` field must
hold a truthy value, which the recursive `toBuffer` call further requires
to be an object; the resulting sub-buffer is copied at the field's offset
(`buffer.set`, which throws when the source does not fit).  The source
casts a bitfield value to `number`; a non-number there has no defined
meaning in the schema contract and is modelled as a type error. -/
def encodeField (name : String) (f : RField) (v : JSVal) (buf : List Nat) :
    Except String (List Nat) :=
  match f with
  | .nested sub subSize off =>
    if v.truthy then
      match v with
      | .obj subData =>
        match encodeFields sub subData (List.replicate subSize 0) with
        | .error e => .error e
        | .ok nb =>
          if off + nb.length ≤ buf.length then .ok (writeBytesAt buf off nb)
          else .error "Source is too large"
      | _ => .error ("Expected an object of fields, but received " ++ v.typeofStr)
    else
      .error ("Expected an object for field " ++ name ++ ", but received " ++ v.typeofStr)
  | .bits sgn w off pos =>
    match v with
    | .num i => writeBitFieldM sgn w off pos i buf
    | _ => .error ("Expected a number for field " ++ name ++ ", but received " ++ v.typeofStr)
  | .prim p _ off => writeFieldM p off v buf
  | .strF sz off =>
    match v with
    | .str sb => strWriteM off sz sb buf
    | _ => .error ("Expected a string for field \"string\", but received " ++ v.typeofStr)

/-- The field loop of `toBuffer`: for each schema field, the guard
`if (!(fieldName in data)) continue` skips the field only when the name is
neither an own entry of the data object nor inherited from
`Object.prototype`; otherwise `data[fieldName]` — the own value when
present, the inherited `protoMember` when not — is serialized into the
buffer. -/
def encodeFields (fields : RSchema) (data : List (String × JSVal)) (buf : List Nat) :
    Except String (List Nat) :=
  match fields with
  | .nil => .ok buf
  | .cons name f rest =>
    match data.lookup name with
    | some v =>
      match encodeField name f v buf with
      | .error e => .error e
      | .ok b2 => encodeFields rest data b2
    | none =>
      if protoKeys.contains name then
        match encodeField name f (protoMember name) buf with
        | .error e => .error e
        | .ok b2 => encodeFields rest data b2
      else encodeFields rest data buf
end

/-- `toBuffer`: allocate a zero buffer of the layout size, reject a
non-object argument, and run the field loop. -/
def toBufferM (m : StructModel) (v : JSVal) : Except String (List Nat) :=
  match v with
  | .obj data => encodeFields m.schema data (List.replicate m.size 0)
  | _ => .error ("Expected an object of fields, but received " ++ v.typeofStr)

mutual
/-- Deserialization of one schema field, as performed inside the
`toObject` loop.  A nested field decodes the sub-span
`buffer.subarray(off, off + size)` recursively. -/
def decodeField (f : RField) (buf : List Nat) : Except String JSVal :=
  match f with
  | .nested sub subSize off =>
    match decodeFields sub (getBytes buf off subSize) with
    | .error e => .error e
    | .ok subVals => .ok (.obj subVals)
  | .bits sgn w off pos => .ok (.num (readBitFieldM sgn w off pos buf))
  | .prim p _ off =>
    match readPrimM p off buf with
    | .error e => .error e
    | .ok i => .ok (if p.isBig then .big i else .num i)
  | .strF sz off => .ok (.str (strReadM off sz buf))

/-- The field loop of `toObject`: read every schema field from the buffer
in declaration order. -/
def decodeFields (fields : RSchema) (buf : List Nat) :
    Except String (List (String × JSVal)) :=
  match fields with
  | .nil => .ok []
  | .cons name f rest =>
    match decodeField f buf with
    | .error e => .error e
    | .ok v =>
      match decodeFields rest buf with
      | .error e => .error e
      | .ok vals => .ok ((name, v) :: vals)
end

/-- `toObject`: decode every schema field and collect the record. -/
def toObjectM (m : StructModel) (buf : List Nat) : Except String JSVal :=
  match decodeFields m.schema buf with
  | .ok vals => .ok (.obj vals)
  | .error e => .error e

/-! ## Derived notions used to state the verified properties -/

/-- A token string the runtime rejects: it matches neither the bitfield
pattern `(Int8|UInt8):\d+` (when it contains a colon) nor, when colon-free,
a supported primitive name — nor an `Object.prototype` property name,
because the plain-object `typeSizes[type]` lookup finds the truthy
inherited member for those, so the `if (typeSizes[type])` guard passes and
the source accepts the token without an error (with a garbage size). -/
def badTokenB (s : String) : Bool :=
  if strContainsColon s then
    match stripColonForm s.data with
    | some (_, ds) => !(ds.length > 0 && allDigits ds)
    | none => true
  else (primNames.lookup s).isNone && !(protoKeys.contains s)

/-- Every field of the resolved schema is a bitfield. -/
def allBitsB : RSchema → Bool
  | .nil => true
  | .cons _ f rest =>
    (match f with | .bits _ _ _ _ => true | _ => false) && allBitsB rest

/-- First bit (inclusive) of the span a field occupies in the record:
byte-aligned for non-bitfields, `8*offset + position` for bitfields. -/
def RField.startBit : RField → Nat
  | .prim _ _ off => 8 * off
  | .strF _ off => 8 * off
  | .bits _ _ off pos => 8 * off + pos
  | .nested _ _ off => 8 * off

/-- One past the last bit of the span a field occupies in the record. -/
def RField.endBit : RField → Nat
  | .prim _ sz off => 8 * (off + sz)
  | .strF sz off => 8 * (off + sz)
  | .bits _ w off pos => 8 * off + pos + w
  | .nested _ ss off => 8 * (off + ss)

mutual
/-- Well-formedness of a resolved field: a bitfield has positive width and
fits inside its byte, a primitive records its true byte size, and a
nested field carries a well-formed sub-layout of the recorded size. -/
def RField.wfB : RField → Bool
  | .prim p sz _ => sz == p.byteSize
  | .strF _ _ => true
  | .bits _ w _ pos => decide (1 ≤ w) && decide (pos + w ≤ 8)
  | .nested sub ss _ => RSchema.wfChain 0 (8 * ss) sub

/-- Well-formedness of a resolved field map between bit cursor `c` and bit
bound `e`: the fields occupy increasing (hence pairwise disjoint) bit
spans starting no earlier than `c` and ending by `e`, and each field is
well-formed. -/
def RSchema.wfChain : Nat → Nat → RSchema → Bool
  | c, e, .nil => decide (c ≤ e)
  | c, e, .cons _ f rest =>
    decide (c ≤ f.startBit) && RField.wfB f && RSchema.wfChain f.endBit e rest
end

/-- Well-formedness of a compiled layout. -/
def StructModel.wfB (m : StructModel) : Bool := RSchema.wfChain 0 (8 * m.size) m.schema

/-- Input-schema well-formedness assumed by the verified properties: every
bitfield token declares a width inside the 1..8 range of the documented
grammar, and every nested input layout is itself well-formed. -/
def descOK (d : FieldDesc) : Bool :=
  match parseField d with
  | .ok (.bits _ w) => decide (1 ≤ w) && decide (w ≤ 8)
  | .ok (.nestedP m) => m.wfB
  | _ => true

/-- Input-schema well-formedness for all entries. -/
def descsOK (descs : List (String × FieldDesc)) : Bool :=
  descs.all (fun nd => descOK nd.2)

/-- A schema given purely by type-token strings (primitive and bitfield
tokens). -/
def tokenDescs (ts : List (String × String)) : List (String × FieldDesc) :=
  ts.map (fun ns => (ns.1, .token ns.2))

/-- Every field of the resolved schema comes from a type token (a
primitive or a bitfield). -/
def allTokensB : RSchema → Bool
  | .nil => true
  | .cons _ f r =>
    (match f with | .prim _ _ _ => true | .bits _ _ _ _ => true | _ => false) && allTokensB r

/-- The value `v` populates field `f` with an in-range value of the
declared runtime kind: a number within the bitfield bounds for a
bitfield, a number (resp. BigInt) within the type's bounds for a narrow
(resp. 64-bit) primitive. -/
def inRangeB : RField → JSVal → Bool
  | .bits sgn w _ _, .num i =>
    decide (bitfieldMin sgn w ≤ i) && decide (i ≤ bitfieldMax sgn w)
  | .prim p _ _, .num i => !p.isBig && decide (primMin p ≤ i) && decide (i ≤ primMax p)
  | .prim p _ _, .big i => p.isBig && decide (primMin p ≤ i) && decide (i ≤ primMax p)
  | _, _ => false

/-- The data record lists exactly the declared fields, in declaration
order, each with an in-range value of its declared kind. -/
def alignedB : RSchema → List (String × JSVal) → Bool
  | .nil, [] => true
  | .cons n f rest, (n', v) :: ds => n == n' && inRangeB f v && alignedB rest ds
  | _, _ => false

/-- The record assembled by pairing each declared field name, in
declaration order, with the value the data object holds for it (the value
each field write looks up during encoding). -/
def lookups (s : RSchema) (data : List (String × JSVal)) : List (String × JSVal) :=
  s.toList.map (fun nf => (nf.1, (data.lookup nf.1).getD (.num 0)))

/-- Every declared field the data object populates carries an in-range
value of its declared kind, and every declared field it omits has a name
that a plain object does not inherit — so the `in` guard of the `toBuffer`
loop really skips it. -/
def presentOKB (s : RSchema) (data : List (String × JSVal)) : Bool :=
  s.toList.all (fun nf =>
    match data.lookup nf.1 with
    | some v => inRangeB nf.2 v
    | none => !(protoKeys.contains nf.1))

/-- Bit `i` of the buffer: bit `i % 8` of byte `i / 8`. -/
def bitAt (buf : List Nat) (i : Nat) : Bool := (byteAt buf (i / 8)).testBit (i % 8)

/-- The kind of a compiled schema entry as far as sizing is concerned:
a byte size for non-bitfields, a bit width for bitfields. -/
inductive FieldKind where
  | byteField (sz : Nat)
  | bitField (w : Nat)

/-- The compiled kind of a schema entry: a byte size for non-bitfields
(primitive byte width, text length, or nested layout size), a bit width
for bitfields.  The error fallback is never reached when the schema
compiles. -/
def descKind (d : FieldDesc) : FieldKind :=
  match parseField d with
  | .ok (.bits _ w) => .bitField w
  | .ok (.prim p) => .byteField p.byteSize
  | .ok (.strP n) => .byteField n
  | .ok (.nestedP m) => .byteField m.size
  | .error _ => .byteField 0

/-- Every bitfield kind has width in 1..8. -/
def kindsOK : List FieldKind → Bool
  | [] => true
  | .byteField _ :: r => kindsOK r
  | .bitField w :: r => decide (1 ≤ w) && decide (w ≤ 8) && kindsOK r

mutual
/-- Modelled from the spec (§8, size additivity): the total layout size
as the sum of all non-bitfield byte sizes plus the bytes consumed by each
maximal run of packed bitfields, counted independently of any byte
offsets. -/
def specSize : List FieldKind → Nat
  | [] => 0
  | .byteField sz :: r => sz + specSize r
  | .bitField w :: r => runSize w r

/-- Modelled from the spec (§4.1/§8): bytes consumed by the open bitfield
run with `bits` bits already packed into the current byte, followed by the
rest of the schema; a width overflowing the byte closes it, and an open
byte at the end of the run counts as one full byte (rounding up). -/
def runSize : Nat → List FieldKind → Nat
  | bits, [] => if bits > 0 then 1 else 0
  | bits, .bitField w :: r => if bits + w > 8 then 1 + runSize w r else runSize (bits + w) r
  | bits, .byteField sz :: r => (if bits > 0 then 1 else 0) + sz + specSize r
end

/-- `startsList needle hay`: `hay` starts with `needle`. -/
def startsList : List Char → List Char → Bool
  | [], _ => true
  | _ :: _, [] => false
  | a :: as, b :: bs => a == b && startsList as bs

/-- `occursIn needle hay`: `needle` occurs contiguously inside `hay`
(substring containment, used to state whether an error message mentions a
field name). -/
def occursIn (needle : List Char) : List Char → Bool
  | [] => startsList needle []
  | b :: bs => startsList needle (b :: bs) || occursIn needle bs

/-! ## Theorems -/

/-- Structural induction for the resolved field map (the mutual recursor
of `RSchema` needs a motive for `RField` as well; this specializes it). -/
theorem RSchema.inductionOn {motive : RSchema → Prop} (h0 : motive .nil)
    (h1 : ∀ n f r, motive r → motive (.cons n f r)) : ∀ s, motive s
  | .nil => h0
  | .cons n f r => h1 n f r (RSchema.inductionOn h0 h1 r)

/-! ### Buffer lemmas -/

theorem byteAt_eq_getElem {buf : List Nat} {i : Nat} (h : i < buf.length) :
    byteAt buf i = buf[i] := by
  rw [byteAt, List.getD_eq_getElem?_getD, List.getElem?_eq_getElem h]
  rfl

theorem byteAt_set_self {buf : List Nat} {i : Nat} (h : i < buf.length) (v : Nat) :
    byteAt (buf.set i v) i = v := by
  rw [byteAt, List.getD_eq_getElem?_getD, List.getElem?_set_eq_of_lt v h]
  rfl

theorem byteAt_set_ne {i j : Nat} (h : i ≠ j) (buf : List Nat) (v : Nat) :
    byteAt (buf.set i v) j = byteAt buf j := by
  rw [byteAt, byteAt, List.getD_eq_getElem?_getD, List.getD_eq_getElem?_getD,
    List.getElem?_set_ne h]

theorem length_writeBytesAt (bs : List Nat) : ∀ (buf : List Nat) (off : Nat),
    (writeBytesAt buf off bs).length = buf.length := by
  induction bs with
  | nil => intro buf off; rfl
  | cons b rest ih => intro buf off; rw [writeBytesAt, ih]; simp

theorem byteAt_writeBytesAt_out (bs : List Nat) : ∀ (buf : List Nat) (off j : Nat),
    (j < off ∨ off + bs.length ≤ j) → byteAt (writeBytesAt buf off bs) j = byteAt buf j := by
  induction bs with
  | nil => intro buf off j _; rfl
  | cons b rest ih =>
    intro buf off j hj
    simp only [List.length_cons] at hj
    rw [writeBytesAt, ih (buf.set off b) (off + 1) j (by omega), byteAt_set_ne (by omega)]

theorem byteAt_writeBytesAt_in (bs : List Nat) : ∀ (buf : List Nat) (off k : Nat),
    off + bs.length ≤ buf.length → k < bs.length →
    byteAt (writeBytesAt buf off bs) (off + k) = bs.getD k 0 := by
  induction bs with
  | nil => intro _ _ _ _ hk; exact absurd hk (by simp)
  | cons b rest ih =>
    intro buf off k hfit hk
    simp only [List.length_cons] at hfit hk
    rw [writeBytesAt]
    match k with
    | 0 =>
      rw [byteAt_writeBytesAt_out rest (buf.set off b) (off + 1) (off + 0) (Or.inl (by omega)),
        Nat.add_zero, byteAt_set_self (by omega) b]
      rfl
    | k' + 1 =>
      rw [show off + (k' + 1) = (off + 1) + k' by omega,
        ih (buf.set off b) (off + 1) k' (by simp; omega) (by omega)]
      rfl

theorem mem_writeBytesAt (bs : List Nat) : ∀ (buf : List Nat) (off : Nat) (x : Nat),
    x ∈ writeBytesAt buf off bs → x ∈ buf ∨ x ∈ bs := by
  induction bs with
  | nil => intro buf off x hx; exact Or.inl hx
  | cons b rest ih =>
    intro buf off x hx
    rcases ih _ (off + 1) x hx with hm | hm
    · rcases List.mem_or_eq_of_mem_set hm with hm' | rfl
      · exact Or.inl hm'
      · exact Or.inr (List.mem_cons_self ..)
    · exact Or.inr (List.mem_cons_of_mem _ hm)

theorem byteAt_lt_256 {buf : List Nat} (h : ∀ b ∈ buf, b < 256) (j : Nat) :
    byteAt buf j < 256 := by
  by_cases hj : j < buf.length
  · rw [byteAt_eq_getElem hj]
    exact h _ (List.getElem_mem ..)
  · rw [byteAt, List.getD_eq_getElem?_getD, List.getElem?_eq_none (by omega)]
    decide

theorem byteAt_replicate_zero (n j : Nat) : byteAt (List.replicate n 0) j = 0 := by
  rw [byteAt, List.getD_eq_getElem?_getD, List.getElem?_replicate]
  split <;> rfl

theorem getBytes_length (buf : List Nat) (off n : Nat) :
    (getBytes buf off n).length = min n (buf.length - off) := by
  simp [getBytes]

theorem getBytes_nil_of_zero (buf : List Nat) (off : Nat) : getBytes buf off 0 = [] := rfl

theorem getBytes_cons {buf : List Nat} {off : Nat} (n : Nat) (h : off < buf.length) :
    getBytes buf off (n + 1) = byteAt buf off :: getBytes buf (off + 1) n := by
  rw [getBytes, getBytes, List.drop_eq_getElem_cons h, List.take_succ_cons,
    byteAt_eq_getElem h]

theorem getBytes_congr : ∀ (n : Nat) {b b' : List Nat} (off : Nat),
    b'.length = b.length → off + n ≤ b.length →
    (∀ j, off ≤ j → j < off + n → byteAt b j = byteAt b' j) →
    getBytes b off n = getBytes b' off n := by
  intro n
  induction n with
  | zero => intro b b' off _ _ _; rfl
  | succ k ih =>
    intro b b' off hlen hfit heq
    rw [getBytes_cons k (by omega), getBytes_cons k (by omega),
      heq off (by omega) (by omega), ih (off + 1) hlen (by omega)
        (fun j h1 h2 => heq j (by omega) (by omega))]

theorem getBytes_writeBytesAt : ∀ (bs buf : List Nat) (off : Nat),
    off + bs.length ≤ buf.length →
    getBytes (writeBytesAt buf off bs) off bs.length = bs := by
  intro bs
  induction bs with
  | nil => intro buf off _; rfl
  | cons b rest ih =>
    intro buf off hfit
    simp only [List.length_cons] at hfit
    rw [writeBytesAt, List.length_cons, getBytes_cons rest.length
        (by rw [length_writeBytesAt]; simp; omega),
      byteAt_writeBytesAt_out rest (buf.set off b) (off + 1) off (Or.inl (by omega)),
      byteAt_set_self (by omega) b,
      ih (buf.set off b) (off + 1) (by simp; omega)]

/-! ### Byte and bit arithmetic lemmas -/

theorem testBit_of_lt_256 {x : Nat} (h : x < 256) {i : Nat} (hi : 8 ≤ i) :
    x.testBit i = false := by
  apply Nat.testBit_lt_two_pow
  calc x < 256 := h
    _ = 2 ^ 8 := rfl
    _ ≤ 2 ^ i := Nat.pow_le_pow_right (by omega) hi

theorem byte_ext {a b : Nat} (ha : a < 256) (hb : b < 256)
    (h : ∀ k, k < 8 → a.testBit k = b.testBit k) : a = b := by
  apply Nat.eq_of_testBit_eq
  intro i
  by_cases hi : i < 8
  · exact h i hi
  · rw [testBit_of_lt_256 ha (by omega), testBit_of_lt_256 hb (by omega)]

theorem bitAt_byte (buf : List Nat) (j k : Nat) (hk : k < 8) :
    bitAt buf (8 * j + k) = (byteAt buf j).testBit k := by
  rw [bitAt, Nat.mul_add_div (by omega), Nat.mul_add_mod, Nat.div_eq_of_lt hk,
    Nat.mod_eq_of_lt hk, Nat.add_zero]

theorem byteAt_congr_of_bitAt {b b' : List Nat} (j : Nat)
    (hb : ∀ x ∈ b, x < 256) (hb' : ∀ x ∈ b', x < 256)
    (h : ∀ k, k < 8 → bitAt b (8 * j + k) = bitAt b' (8 * j + k)) :
    byteAt b j = byteAt b' j := by
  apply byte_ext (byteAt_lt_256 hb j) (byteAt_lt_256 hb' j)
  intro k hk
  have := h k hk
  rwa [bitAt_byte _ _ _ hk, bitAt_byte _ _ _ hk] at this

/-! ### Sign extension and two's-complement lemmas -/

theorem two_pow_pos_int (w : Nat) : (0 : Int) < 2 ^ w := by positivity

theorem emod_two_pow_nonneg (v : Int) (w : Nat) : 0 ≤ v % ((2 : Int) ^ w) :=
  Int.emod_nonneg v (by positivity)

theorem emod_two_pow_lt (v : Int) (w : Nat) : v % ((2 : Int) ^ w) < 2 ^ w :=
  Int.emod_lt_of_pos v (two_pow_pos_int w)

theorem two_pow_split (w : Nat) (hw : 1 ≤ w) : (2 : Int) ^ w = 2 ^ (w - 1) * 2 := by
  rw [← pow_succ]
  congr 1
  omega

theorem asIntN_eq_self {w : Nat} (hw : 1 ≤ w) {v : Int}
    (hlo : -((2 : Int) ^ (w - 1)) ≤ v) (hhi : v ≤ (2 : Int) ^ (w - 1) - 1) :
    asIntN w v = v := by
  rw [asIntN]
  have hsplit := two_pow_split w hw
  have hp : (0 : Int) < 2 ^ (w - 1) := two_pow_pos_int _
  by_cases h0 : 0 ≤ v
  · rw [Int.emod_eq_of_lt h0 (by omega), if_pos (by omega)]
  · have hmod : v % ((2 : Int) ^ w) = v + 2 ^ w := by
      have h1 : (v + 2 ^ w * 1) % ((2 : Int) ^ w) = v % 2 ^ w :=
        Int.add_mul_emod_self_left v ((2 : Int) ^ w) 1
      rw [mul_one] at h1
      rw [← h1, Int.emod_eq_of_lt (by omega) (by omega)]
    rw [hmod, if_neg (by omega)]
    omega

theorem asIntN_emod (w : Nat) (v : Int) : asIntN w (v % (2 : Int) ^ w) = asIntN w v := by
  rw [asIntN, asIntN, Int.emod_emod_of_dvd v dvd_rfl]

theorem processValue_id (sgn : Bool) {w : Nat} (hw : 1 ≤ w) {v : Int}
    (hlo : bitfieldMin sgn w ≤ v) (hhi : v ≤ bitfieldMax sgn w) :
    processValueForBitfield sgn w v = v := by
  cases sgn with
  | false => rfl
  | true =>
    rw [processValueForBitfield, if_pos rfl]
    rw [bitfieldMin, if_pos rfl] at hlo
    rw [bitfieldMax, if_pos rfl] at hhi
    exact asIntN_eq_self hw hlo hhi

theorem processValue_roundtrip (sgn : Bool) {w : Nat} (hw : 1 ≤ w) {v : Int}
    (hlo : bitfieldMin sgn w ≤ v) (hhi : v ≤ bitfieldMax sgn w) :
    processValueForBitfield sgn w (Int.ofNat ((v % (2 : Int) ^ w).toNat)) = v := by
  have hnn := emod_two_pow_nonneg v w
  have hcast : (Int.ofNat ((v % (2 : Int) ^ w).toNat)) = v % 2 ^ w :=
    Int.toNat_of_nonneg hnn
  cases sgn with
  | false =>
    rw [bitfieldMin, if_neg (by simp)] at hlo
    rw [bitfieldMax, if_neg (by simp)] at hhi
    rw [processValueForBitfield, if_neg (by simp), hcast,
      Int.emod_eq_of_lt hlo (by omega)]
  | true =>
    rw [bitfieldMin, if_pos rfl] at hlo
    rw [bitfieldMax, if_pos rfl] at hhi
    rw [processValueForBitfield, if_pos rfl, hcast, asIntN_emod]
    exact asIntN_eq_self hw hlo hhi

/-! ### The `applyBitmask` read-modify-write lemmas -/

theorem testBit_shiftedMask (w pos i : Nat) :
    ((2 ^ w - 1) <<< pos).testBit i = (decide (pos ≤ i) && decide (i < pos + w)) := by
  rw [Nat.testBit_shiftLeft, Nat.testBit_two_pow_sub_one]
  by_cases h1 : pos ≤ i
  · rw [decide_eq_true h1, Bool.true_and, Bool.true_and]
    exact decide_eq_decide.mpr (by omega)
  · rw [decide_eq_false h1, Bool.false_and, Bool.false_and]

theorem toNat_emod_two_pow_le {v : Int} {w e : Nat} (hwe : w ≤ e) :
    (v % (2 : Int) ^ w).toNat = (v % (2 : Int) ^ e).toNat % 2 ^ w := by
  have hd : ((2 : Int) ^ w) ∣ 2 ^ e := pow_dvd_pow 2 hwe
  have h1 : v % 2 ^ e % 2 ^ w = v % 2 ^ w := Int.emod_emod_of_dvd v hd
  rw [← h1]
  have hA := emod_two_pow_nonneg v e
  set A := v % (2 : Int) ^ e with hAdef
  rw [← Int.toNat_of_nonneg hA]
  rw [show ((2 : Int) ^ w) = ((2 ^ w : Nat) : Int) by push_cast; ring]
  rw [← Int.natCast_mod, Int.toNat_natCast, Int.toNat_natCast]

theorem toUint32_mul_two_pow (v : Int) {pos : Nat} (hpos : pos < 32) :
    toUint32 (v * (2 : Int) ^ pos) = (toUint32 v <<< pos) % 2 ^ 32 := by
  rw [toUint32, toUint32, Nat.shiftLeft_eq]
  have h2 : ((2 : Int) ^ pos) % 4294967296 = 2 ^ pos := by
    apply Int.emod_eq_of_lt (by positivity)
    calc (2 : Int) ^ pos < 2 ^ 32 := by
          exact pow_lt_pow_right₀ (by omega) hpos
      _ = 4294967296 := by norm_num
  have h1 : (v * (2 : Int) ^ pos) % 4294967296 = ((v % 4294967296) * 2 ^ pos) % 4294967296 := by
    rw [Int.mul_emod v ((2 : Int) ^ pos) 4294967296, h2]
  rw [h1]
  have hA : (0 : Int) ≤ v % 4294967296 := Int.emod_nonneg v (by omega)
  rw [← Int.toNat_of_nonneg hA]
  set a := (v % 4294967296).toNat with ha
  rw [show ((4294967296 : Int)) = ((4294967296 : Nat) : Int) by rfl]
  rw [show (((a : Int)) * 2 ^ pos) = ((a * 2 ^ pos : Nat) : Int) by push_cast; ring]
  rw [← Int.natCast_mod, Int.toNat_natCast, Int.toNat_natCast]
  norm_num

theorem valueShifted_eq (v : Int) {w pos : Nat} (hpw : pos + w ≤ 8) :
    toUint32 (v * (2 : Int) ^ pos) &&& ((2 ^ w - 1) <<< pos) =
      ((v % (2 : Int) ^ w).toNat) <<< pos := by
  have h32 : (2 : Nat) ^ 32 = 4294967296 := by norm_num
  apply Nat.eq_of_testBit_eq
  intro i
  rw [Nat.testBit_land, testBit_shiftedMask, toUint32_mul_two_pow v (by omega),
    toNat_emod_two_pow_le (show w ≤ 32 by omega), Nat.testBit_shiftLeft,
    Nat.testBit_mod_two_pow, Nat.testBit_shiftLeft, Nat.testBit_mod_two_pow]
  rw [toUint32]
  by_cases h1 : pos ≤ i
  · by_cases h2 : i < pos + w
    · rw [decide_eq_true h1, decide_eq_true h2, decide_eq_true (show i < 32 by omega),
        decide_eq_true (show i - pos < w by omega)]
      simp
    · rw [decide_eq_false h2, decide_eq_false (show ¬(i - pos < w) by omega)]
      simp
  · rw [decide_eq_false h1, Bool.false_and, Bool.false_and, Bool.false_and]
    simp

theorem applyBitmask_spec (cb : Nat) (hcb : cb < 256) {w pos : Nat} (v : Int)
    (hpw : pos + w ≤ 8) :
    applyBitmask cb w v pos < 256 ∧
    (∀ k, (k < pos ∨ pos + w ≤ k) → (applyBitmask cb w v pos).testBit k = cb.testBit k) ∧
    ((applyBitmask cb w v pos) >>> pos) &&& (2 ^ w - 1) = (v % (2 : Int) ^ w).toNat := by
  have hvs := valueShifted_eq v hpw
  have hmask_lt : (2 ^ w - 1) <<< pos < 256 := by
    rw [Nat.shiftLeft_eq]
    calc (2 ^ w - 1) * 2 ^ pos < 2 ^ w * 2 ^ pos := by
          have := Nat.pos_pow_of_pos w (show 0 < 2 by omega)
          have := Nat.pos_pow_of_pos pos (show 0 < 2 by omega)
          exact Nat.mul_lt_mul_of_lt_of_le (by omega) (le_refl _) (by omega)
      _ = 2 ^ (w + pos) := by rw [pow_add]
      _ ≤ 2 ^ 8 := Nat.pow_le_pow_right (by omega) (by omega)
      _ = 256 := by norm_num
  have htoNat_lt : (v % (2 : Int) ^ w).toNat < 2 ^ w := by
    have := emod_two_pow_lt v w
    have := emod_two_pow_nonneg v w
    have hc : ((2 : Int) ^ w) = ((2 ^ w : Nat) : Int) := by push_cast; ring
    omega
  rw [applyBitmask]
  rw [hvs]
  set Y := (v % (2 : Int) ^ w).toNat with hY
  have hcleared_bit : ∀ i, (cb &&& (4294967295 ^^^ (2 ^ w - 1) <<< pos)).testBit i =
      (cb.testBit i && !(((2 ^ w - 1) <<< pos).testBit i)) := by
    intro i
    rw [Nat.testBit_land, Nat.testBit_xor,
      show (4294967295 : Nat) = 2 ^ 32 - 1 by norm_num, Nat.testBit_two_pow_sub_one]
    by_cases hi : i < 32
    · simp [hi]
    · rw [testBit_of_lt_256 hcb (by omega)]
      simp
  refine ⟨?_, ?_, ?_⟩
  · rw [show (256 : Nat) = 2 ^ 8 by norm_num]
    apply Nat.or_lt_two_pow
    · calc cb &&& (4294967295 ^^^ (2 ^ w - 1) <<< pos) ≤ cb := Nat.and_le_left
        _ < 2 ^ 8 := by omega
    · calc Y <<< pos = Y * 2 ^ pos := Nat.shiftLeft_eq ..
        _ < 2 ^ w * 2 ^ pos := by
            have := Nat.pos_pow_of_pos pos (show 0 < 2 by omega)
            exact Nat.mul_lt_mul_of_lt_of_le htoNat_lt (le_refl _) (by omega)
        _ = 2 ^ (w + pos) := by rw [pow_add]
        _ ≤ 2 ^ 8 := Nat.pow_le_pow_right (by omega) (by omega)
  · intro k hk
    rw [Nat.testBit_lor, hcleared_bit, testBit_shiftedMask, Nat.testBit_shiftLeft]
    have h1 : (decide (pos ≤ k) && decide (k < pos + w)) = false := by
      rcases hk with h | h <;> simp <;> omega
    rw [h1]
    by_cases h2 : pos ≤ k
    · rw [decide_eq_true h2]
      have hYbit : Y.testBit (k - pos) = false :=
        Nat.testBit_lt_two_pow (by
          calc Y < 2 ^ w := htoNat_lt
            _ ≤ 2 ^ (k - pos) := Nat.pow_le_pow_right (by omega) (by omega))
      simp [hYbit]
    · rw [decide_eq_false h2]
      simp
  · apply Nat.eq_of_testBit_eq
    intro i
    rw [Nat.testBit_land, Nat.testBit_shiftRight, Nat.testBit_two_pow_sub_one,
      Nat.testBit_lor, hcleared_bit, testBit_shiftedMask, Nat.testBit_shiftLeft]
    by_cases h2 : i < w
    · rw [decide_eq_true (show pos ≤ pos + i by omega),
        decide_eq_true (show pos + i < pos + w by omega),
        decide_eq_true h2, show pos + i - pos = i by omega]
      simp
    · rw [decide_eq_false h2, Bool.and_false,
        Nat.testBit_lt_two_pow (show Y < 2 ^ i by
          calc Y < 2 ^ w := htoNat_lt
            _ ≤ 2 ^ i := Nat.pow_le_pow_right (by omega) (by omega))]

/-! ### Bitfield write/read correctness -/

theorem writeBitFieldM_ok (sgn : Bool) {w off pos : Nat} (v : Int) (buf : List Nat)
    (hw : 1 ≤ w) (hpw : pos + w ≤ 8)
    (hlo : bitfieldMin sgn w ≤ v) (hhi : v ≤ bitfieldMax sgn w)
    (hbytes : ∀ b ∈ buf, b < 256) (hoff : off < buf.length) :
    ∃ buf', writeBitFieldM sgn w off pos v buf = .ok buf' ∧
      buf'.length = buf.length ∧ (∀ b ∈ buf', b < 256) ∧
      (∀ j, j ≠ off → byteAt buf' j = byteAt buf j) ∧
      (∀ k, k < pos ∨ pos + w ≤ k → (byteAt buf' off).testBit k = (byteAt buf off).testBit k) ∧
      readBitFieldM sgn w off pos buf' = v := by
  have hcb := byteAt_lt_256 hbytes off
  have hproc := processValue_id sgn hw hlo hhi
  obtain ⟨hlt, hframe, hextract⟩ :=
    applyBitmask_spec (byteAt buf off) hcb (processValueForBitfield sgn w v) hpw
  rw [hproc] at hlt hframe hextract
  set nb := applyBitmask (byteAt buf off) w v pos with hnb
  refine ⟨buf.set off (nb % 256), ?_, ?_, ?_, ?_, ?_, ?_⟩
  · rw [writeBitFieldM, if_neg (by omega), hproc]
  · simp
  · intro b hb
    rcases List.mem_or_eq_of_mem_set hb with hm | rfl
    · exact hbytes b hm
    · omega
  · intro j hj
    exact byteAt_set_ne (fun h => hj h.symm) buf (nb % 256)
  · intro k hk
    rw [byteAt_set_self hoff, Nat.mod_eq_of_lt hlt]
    exact hframe k hk
  · rw [readBitFieldM, byteAt_set_self hoff, Nat.mod_eq_of_lt hlt, hextract]
    exact processValue_roundtrip sgn hw hlo hhi

theorem readBitFieldM_congr (sgn : Bool) (w off pos : Nat) {b b' : List Nat}
    (h : ∀ k, pos ≤ k → k < pos + w →
      (byteAt b off).testBit k = (byteAt b' off).testBit k) :
    readBitFieldM sgn w off pos b = readBitFieldM sgn w off pos b' := by
  rw [readBitFieldM, readBitFieldM]
  have hext : (byteAt b off >>> pos) &&& (2 ^ w - 1) =
      (byteAt b' off >>> pos) &&& (2 ^ w - 1) := by
    apply Nat.eq_of_testBit_eq
    intro i
    rw [Nat.testBit_land, Nat.testBit_land, Nat.testBit_shiftRight, Nat.testBit_shiftRight,
      Nat.testBit_two_pow_sub_one]
    by_cases hi : i < w
    · rw [h (pos + i) (by omega) (by omega)]
    · rw [decide_eq_false hi, Bool.and_false, Bool.and_false]
  rw [hext]

/-! ### Primitive write/read correctness -/

theorem Prim.byteSize_pos (p : Prim) : 1 ≤ p.byteSize := by cases p <;> decide

theorem Prim.byteSize_le (p : Prim) : p.byteSize ≤ 8 := by cases p <;> decide

theorem length_leBytes (n : Nat) : ∀ u, (leBytes n u).length = n := by
  induction n with
  | zero => intro u; rfl
  | succ k ih => intro u; rw [leBytes, List.length_cons, ih]

theorem mem_leBytes_lt (n : Nat) : ∀ u b, b ∈ leBytes n u → b < 256 := by
  induction n with
  | zero => intro u b hb; exact absurd hb (List.not_mem_nil b)
  | succ k ih =>
    intro u b hb
    rcases List.mem_cons.mp hb with rfl | hm
    · exact Nat.mod_lt u (by omega)
    · exact ih (u / 256) b hm

theorem bytesToNatLE_leBytes (n : Nat) : ∀ u, u < 256 ^ n →
    bytesToNatLE (leBytes n u) = u := by
  induction n with
  | zero => intro u hu; interval_cases u; rfl
  | succ k ih =>
    intro u hu
    rw [leBytes, bytesToNatLE, ih (u / 256) (by
      rw [Nat.div_lt_iff_lt_mul (by omega)]
      calc u < 256 ^ (k + 1) := hu
        _ = 256 ^ k * 256 := by rw [pow_succ]), Nat.mod_add_div u 256]

theorem two_pow_8n_eq (n : Nat) : (2 : Nat) ^ (8 * n) = 256 ^ n := by
  rw [pow_mul]
  norm_num

theorem writePrimM_ok (p : Prim) {off : Nat} (v : Int) (buf : List Nat)
    (hlo : primMin p ≤ v) (hhi : v ≤ primMax p)
    (hbytes : ∀ b ∈ buf, b < 256) (hoff : off + p.byteSize ≤ buf.length) :
    ∃ buf', writePrimM p off v buf = .ok buf' ∧
      buf'.length = buf.length ∧ (∀ b ∈ buf', b < 256) ∧
      (∀ j, j < off ∨ off + p.byteSize ≤ j → byteAt buf' j = byteAt buf j) ∧
      readPrimM p off buf' = .ok v := by
  set n := p.byteSize with hn
  set u : Nat := (v % ((2 : Int) ^ (8 * n))).toNat with hu
  set bytesLE := leBytes n u with hbl
  set bytes := if p.bigEndian then bytesLE.reverse else bytesLE with hbs
  have hblen : bytes.length = n := by
    rw [hbs]
    by_cases hbe : p.bigEndian <;> simp [hbe, hbl, length_leBytes]
  have hbmem : ∀ b ∈ bytes, b < 256 := by
    intro b hb
    rw [hbs] at hb
    by_cases hbe : p.bigEndian
    · rw [if_pos hbe, List.mem_reverse] at hb
      exact mem_leBytes_lt n u b hb
    · rw [if_neg hbe] at hb
      exact mem_leBytes_lt n u b hb
  have hufit : u < 256 ^ n := by
    have h1 := emod_two_pow_lt v (8 * n)
    have h2 := emod_two_pow_nonneg v (8 * n)
    have hc : ((2 : Int) ^ (8 * n)) = ((2 ^ (8 * n) : Nat) : Int) := by push_cast; ring
    rw [← two_pow_8n_eq]
    omega
  refine ⟨writeBytesAt buf off bytes, ?_, ?_, ?_, ?_, ?_⟩
  · rw [writePrimM, if_neg (by omega), if_neg (by omega)]
  · exact length_writeBytesAt bytes buf off
  · intro b hb
    rcases mem_writeBytesAt bytes buf off b hb with hm | hm
    · exact hbytes b hm
    · exact hbmem b hm
  · intro j hj
    exact byteAt_writeBytesAt_out bytes buf off j (by omega)
  · rw [readPrimM, if_neg (by rw [length_writeBytesAt]; omega)]
    have hraw : getBytes (writeBytesAt buf off bytes) off n = bytes := by
      have := getBytes_writeBytesAt bytes buf off (by omega)
      rwa [hblen] at this
    rw [hraw]
    have hord : (if p.bigEndian then bytes.reverse else bytes) = bytesLE := by
      rw [hbs]
      by_cases hbe : p.bigEndian <;> simp [hbe]
    have hdec : bytesToNatLE (if p.bigEndian then bytes.reverse else bytes) = u := by
      rw [hord, hbl, bytesToNatLE_leBytes n u hufit]
    simp only [hdec]
    have hcastu : (Int.ofNat u) = v % (2 : Int) ^ (8 * p.byteSize) :=
      Int.toNat_of_nonneg (emod_two_pow_nonneg v (8 * p.byteSize))
    have h8n : 1 ≤ 8 * p.byteSize := by have := p.byteSize_pos; omega
    by_cases hsgn : p.signed
    · rw [if_pos hsgn]
      rw [primMin, if_pos hsgn] at hlo
      rw [primMax, if_pos hsgn] at hhi
      rw [hcastu, asIntN_emod, asIntN_eq_self h8n hlo hhi]
    · rw [if_neg hsgn]
      rw [primMin, if_neg hsgn] at hlo
      rw [primMax, if_neg hsgn] at hhi
      rw [hcastu, Int.emod_eq_of_lt hlo (by omega)]

theorem readPrimM_congr (p : Prim) (off : Nat) {b b' : List Nat}
    (hlen : b'.length = b.length) (hfit : off + p.byteSize ≤ b.length)
    (h : ∀ j, off ≤ j → j < off + p.byteSize → byteAt b j = byteAt b' j) :
    readPrimM p off b = readPrimM p off b' := by
  rw [readPrimM, readPrimM, if_neg (by omega), if_neg (by omega),
    getBytes_congr p.byteSize off hlen hfit h]

/-! ### Layout chain lemmas -/

theorem RField.startBit_le_endBit (f : RField) : f.startBit ≤ f.endBit := by
  cases f <;> simp [RField.startBit, RField.endBit]

theorem wfChain_le : ∀ (s : RSchema) (c e : Nat), RSchema.wfChain c e s = true → c ≤ e := by
  intro s
  induction s using RSchema.inductionOn with
  | h0 =>
    intro c e h
    rw [RSchema.wfChain, decide_eq_true_eq] at h
    exact h
  | h1 n f r ih =>
    intro c e h
    rw [RSchema.wfChain, Bool.and_eq_true, Bool.and_eq_true, decide_eq_true_eq] at h
    calc c ≤ f.startBit := h.1.1
      _ ≤ f.endBit := f.startBit_le_endBit
      _ ≤ e := ih f.endBit e h.2

theorem wfChain_mem : ∀ (s : RSchema) (c e : Nat), RSchema.wfChain c e s = true →
    ∀ nf ∈ s.toList, c ≤ nf.2.startBit ∧ nf.2.endBit ≤ e ∧ nf.2.wfB = true := by
  intro s
  induction s using RSchema.inductionOn with
  | h0 => intro c e _ nf hnf; exact absurd hnf (List.not_mem_nil nf)
  | h1 n f r ih =>
    intro c e h nf hnf
    rw [RSchema.wfChain, Bool.and_eq_true, Bool.and_eq_true, decide_eq_true_eq] at h
    rcases List.mem_cons.mp hnf with rfl | hm
    · exact ⟨h.1.1, wfChain_le r f.endBit e h.2, h.1.2⟩
    · obtain ⟨h1, h2, h3⟩ := ih f.endBit e h.2 nf hm
      exact ⟨le_trans (le_trans h.1.1 f.startBit_le_endBit) h1, h2, h3⟩

theorem wfChain_pairwise : ∀ (s : RSchema) (c e : Nat), RSchema.wfChain c e s = true →
    s.toList.Pairwise (fun a b => a.2.endBit ≤ b.2.startBit) := by
  intro s
  induction s using RSchema.inductionOn with
  | h0 => intro c e _; exact List.Pairwise.nil
  | h1 n f r ih =>
    intro c e h
    rw [RSchema.wfChain, Bool.and_eq_true, Bool.and_eq_true, decide_eq_true_eq] at h
    refine List.Pairwise.cons ?_ (ih f.endBit e h.2)
    intro b hb
    exact (wfChain_mem r f.endBit e h.2 b hb).1

theorem wfChain_mono {e e' : Nat} (he : e ≤ e') :
    ∀ (s : RSchema) (c : Nat), RSchema.wfChain c e s = true →
    RSchema.wfChain c e' s = true := by
  intro s
  induction s using RSchema.inductionOn with
  | h0 =>
    intro c h
    rw [RSchema.wfChain, decide_eq_true_eq] at h ⊢
    omega
  | h1 n f r ih =>
    intro c h
    rw [RSchema.wfChain, Bool.and_eq_true, Bool.and_eq_true] at h ⊢
    exact ⟨h.1, ih f.endBit h.2⟩

/-! ### Properties of the schema compiler pass -/

theorem parseSchemaAux_names :
    ∀ (descs : List (String × FieldDesc)) (bits bytes : Nat) (s : RSchema) (total : Nat),
      parseSchemaAux descs bits bytes = .ok (s, total) →
      s.names = descs.map Prod.fst := by
  intro descs
  induction descs with
  | nil =>
    intro bits bytes s total hp
    rw [parseSchemaAux] at hp
    injection hp with hp
    rw [← (Prod.mk.injEq ..).mp hp |>.1]
    rfl
  | cons hd rest ih =>
    intro bits bytes s total hp
    obtain ⟨n, d⟩ := hd
    rw [parseSchemaAux] at hp
    match hpf : parseField d with
    | .error e => rw [hpf] at hp; exact Except.noConfusion hp
    | .ok (.bits sgn w) =>
      rw [hpf] at hp
      simp only at hp
      match hrec : parseSchemaAux rest
          ((if bits + w > 8 then 0 else bits) + w)
          (if bits + w > 8 then bytes + 1 else bytes) with
      | .error e => rw [hrec] at hp; exact Except.noConfusion hp
      | .ok (s', total') =>
        rw [hrec] at hp
        injection hp with hp
        obtain ⟨hs, -⟩ := (Prod.mk.injEq ..).mp hp
        rw [← hs, RSchema.names, ih _ _ _ _ hrec]
        rfl
    | .ok (.prim p) =>
      rw [hpf] at hp
      simp only at hp
      match hrec : parseSchemaAux rest 0
          ((if bits > 0 then bytes + 1 else bytes) + p.byteSize) with
      | .error e => rw [hrec] at hp; exact Except.noConfusion hp
      | .ok (s', total') =>
        rw [hrec] at hp
        injection hp with hp
        obtain ⟨hs, -⟩ := (Prod.mk.injEq ..).mp hp
        rw [← hs, RSchema.names, ih _ _ _ _ hrec]
        rfl
    | .ok (.strP sz) =>
      rw [hpf] at hp
      simp only at hp
      match hrec : parseSchemaAux rest 0
          ((if bits > 0 then bytes + 1 else bytes) + sz) with
      | .error e => rw [hrec] at hp; exact Except.noConfusion hp
      | .ok (s', total') =>
        rw [hrec] at hp
        injection hp with hp
        obtain ⟨hs, -⟩ := (Prod.mk.injEq ..).mp hp
        rw [← hs, RSchema.names, ih _ _ _ _ hrec]
        rfl
    | .ok (.nestedP msub) =>
      rw [hpf] at hp
      simp only at hp
      match hrec : parseSchemaAux rest 0
          ((if bits > 0 then bytes + 1 else bytes) + msub.size) with
      | .error e => rw [hrec] at hp; exact Except.noConfusion hp
      | .ok (s', total') =>
        rw [hrec] at hp
        injection hp with hp
        obtain ⟨hs, -⟩ := (Prod.mk.injEq ..).mp hp
        rw [← hs, RSchema.names, ih _ _ _ _ hrec]
        rfl

theorem parseSchemaAux_wf :
    ∀ (descs : List (String × FieldDesc)) (bits bytes : Nat) (s : RSchema) (total : Nat),
      parseSchemaAux descs bits bytes = .ok (s, total) →
      descsOK descs = true → bits ≤ 8 →
      RSchema.wfChain (8 * bytes + bits) (8 * total) s = true := by
  intro descs
  induction descs with
  | nil =>
    intro bits bytes s total hp _ hb
    rw [parseSchemaAux] at hp
    injection hp with hp
    obtain ⟨hs, ht⟩ := (Prod.mk.injEq ..).mp hp
    rw [← hs, ← ht, RSchema.wfChain, decide_eq_true_eq]
    by_cases hb0 : bits > 0
    · rw [if_pos hb0]; omega
    · rw [if_neg hb0]; omega
  | cons hd rest ih =>
    intro bits bytes s total hp hOK hb
    obtain ⟨n, d⟩ := hd
    rw [descsOK, List.all_cons, Bool.and_eq_true] at hOK
    obtain ⟨hdOK, hrestOK'⟩ := hOK
    have hrestOK : descsOK rest = true := hrestOK'
    rw [parseSchemaAux] at hp
    match hpf : parseField d with
    | .error e => rw [hpf] at hp; exact Except.noConfusion hp
    | .ok (.bits sgn w) =>
      rw [hpf] at hp
      simp only at hp
      rw [descOK, hpf, Bool.and_eq_true, decide_eq_true_eq, decide_eq_true_eq] at hdOK
      obtain ⟨hw1, hw8⟩ := hdOK
      by_cases hov : bits + w > 8
      · rw [if_pos hov, if_pos hov] at hp
        match hrec : parseSchemaAux rest (0 + w) (bytes + 1) with
        | .error e => rw [hrec] at hp; exact Except.noConfusion hp
        | .ok (s', total') =>
          rw [hrec] at hp
          injection hp with hp
          obtain ⟨hs, ht⟩ := (Prod.mk.injEq ..).mp hp
          rw [← hs, ← ht, RSchema.wfChain, Bool.and_eq_true, Bool.and_eq_true,
            decide_eq_true_eq]
          refine ⟨⟨?_, ?_⟩, ?_⟩
          · rw [RField.startBit]; omega
          · rw [RField.wfB, Bool.and_eq_true, decide_eq_true_eq, decide_eq_true_eq]
            omega
          · have hih := ih (0 + w) (bytes + 1) s' total' hrec hrestOK (by omega)
            rw [show (RField.bits sgn w (bytes + 1) 0).endBit = 8 * (bytes + 1) + (0 + w) by
              rw [RField.endBit]; omega]
            exact hih
      · rw [if_neg hov, if_neg hov] at hp
        match hrec : parseSchemaAux rest (bits + w) bytes with
        | .error e => rw [hrec] at hp; exact Except.noConfusion hp
        | .ok (s', total') =>
          rw [hrec] at hp
          injection hp with hp
          obtain ⟨hs, ht⟩ := (Prod.mk.injEq ..).mp hp
          rw [← hs, ← ht, RSchema.wfChain, Bool.and_eq_true, Bool.and_eq_true,
            decide_eq_true_eq]
          refine ⟨⟨?_, ?_⟩, ?_⟩
          · rw [RField.startBit]
          · rw [RField.wfB, Bool.and_eq_true, decide_eq_true_eq, decide_eq_true_eq]
            omega
          · have hih := ih (bits + w) bytes s' total' hrec hrestOK (by omega)
            rw [show (RField.bits sgn w bytes bits).endBit = 8 * bytes + (bits + w) by
              rw [RField.endBit]; omega]
            exact hih
    | .ok (.prim p) =>
      rw [hpf] at hp
      simp only at hp
      match hrec : parseSchemaAux rest 0
          ((if bits > 0 then bytes + 1 else bytes) + p.byteSize) with
      | .error e => rw [hrec] at hp; exact Except.noConfusion hp
      | .ok (s', total') =>
        rw [hrec] at hp
        injection hp with hp
        obtain ⟨hs, ht⟩ := (Prod.mk.injEq ..).mp hp
        rw [← hs, ← ht, RSchema.wfChain, Bool.and_eq_true, Bool.and_eq_true,
          decide_eq_true_eq]
        refine ⟨⟨?_, ?_⟩, ?_⟩
        · rw [RField.startBit]
          by_cases hb0 : bits > 0
          · rw [if_pos hb0]; omega
          · rw [if_neg hb0]; omega
        · rw [RField.wfB]; simp
        · have hih := ih 0 ((if bits > 0 then bytes + 1 else bytes) + p.byteSize)
            s' total' hrec hrestOK (by omega)
          rw [show (RField.prim p p.byteSize (if bits > 0 then bytes + 1 else bytes)).endBit =
              8 * ((if bits > 0 then bytes + 1 else bytes) + p.byteSize) + 0 by
            rw [RField.endBit]; omega]
          exact hih
    | .ok (.strP sz) =>
      rw [hpf] at hp
      simp only at hp
      match hrec : parseSchemaAux rest 0
          ((if bits > 0 then bytes + 1 else bytes) + sz) with
      | .error e => rw [hrec] at hp; exact Except.noConfusion hp
      | .ok (s', total') =>
        rw [hrec] at hp
        injection hp with hp
        obtain ⟨hs, ht⟩ := (Prod.mk.injEq ..).mp hp
        rw [← hs, ← ht, RSchema.wfChain, Bool.and_eq_true, Bool.and_eq_true,
          decide_eq_true_eq]
        refine ⟨⟨?_, ?_⟩, ?_⟩
        · rw [RField.startBit]
          by_cases hb0 : bits > 0
          · rw [if_pos hb0]; omega
          · rw [if_neg hb0]; omega
        · rfl
        · have hih := ih 0 ((if bits > 0 then bytes + 1 else bytes) + sz)
            s' total' hrec hrestOK (by omega)
          rw [show (RField.strF sz (if bits > 0 then bytes + 1 else bytes)).endBit =
              8 * ((if bits > 0 then bytes + 1 else bytes) + sz) + 0 by
            rw [RField.endBit]; omega]
          exact hih
    | .ok (.nestedP msub) =>
      rw [hpf] at hp
      simp only at hp
      rw [descOK, hpf] at hdOK
      match hrec : parseSchemaAux rest 0
          ((if bits > 0 then bytes + 1 else bytes) + msub.size) with
      | .error e => rw [hrec] at hp; exact Except.noConfusion hp
      | .ok (s', total') =>
        rw [hrec] at hp
        injection hp with hp
        obtain ⟨hs, ht⟩ := (Prod.mk.injEq ..).mp hp
        rw [← hs, ← ht, RSchema.wfChain, Bool.and_eq_true, Bool.and_eq_true,
          decide_eq_true_eq]
        refine ⟨⟨?_, ?_⟩, ?_⟩
        · rw [RField.startBit]
          by_cases hb0 : bits > 0
          · rw [if_pos hb0]; omega
          · rw [if_neg hb0]; omega
        · rw [RField.wfB]
          exact hdOK
        · have hih := ih 0 ((if bits > 0 then bytes + 1 else bytes) + msub.size)
            s' total' hrec hrestOK (by omega)
          rw [show (RField.nested msub.schema msub.size
                (if bits > 0 then bytes + 1 else bytes)).endBit =
              8 * ((if bits > 0 then bytes + 1 else bytes) + msub.size) + 0 by
            rw [RField.endBit]; omega]
          exact hih

theorem parseStruct_wf {descs : List (String × FieldDesc)} {m : StructModel}
    (hp : parseStruct descs = .ok m) (hOK : descsOK descs = true) :
    StructModel.wfB m = true := by
  rw [parseStruct] at hp
  match hrec : parseSchemaAux descs 0 0 with
  | .error e => rw [hrec] at hp; exact Except.noConfusion hp
  | .ok (s, total) =>
    rw [hrec] at hp
    injection hp with hp
    rw [StructModel.wfB, ← hp]
    exact parseSchemaAux_wf descs 0 0 s total hrec hOK (by omega)

theorem parseStruct_names {descs : List (String × FieldDesc)} {m : StructModel}
    (hp : parseStruct descs = .ok m) : m.schema.names = descs.map Prod.fst := by
  rw [parseStruct] at hp
  match hrec : parseSchemaAux descs 0 0 with
  | .error e => rw [hrec] at hp; exact Except.noConfusion hp
  | .ok (s, total) =>
    rw [hrec] at hp
    injection hp with hp
    rw [← hp]
    exact parseSchemaAux_names descs 0 0 s total hrec

/-- C6: in a layout compiled from well-formed tokens, every bitfield fits
inside its byte (`position + size ≤ 8` with positive width) and any two
distinct fields occupy disjoint bit spans — byte ranges of non-bitfields
never overlap, and bitfields sharing a byte have disjoint
`[position, position + size)` bit ranges. -/
theorem claim6_disjoint_spans :
    ∀ (descs : List (String × FieldDesc)) (m : StructModel),
      parseStruct descs = .ok m → descsOK descs = true →
      ((∀ nf ∈ m.schema.toList, ∀ (sgn : Bool) (w off pos : Nat),
          nf.2 = .bits sgn w off pos → 1 ≤ w ∧ pos + w ≤ 8) ∧
       m.schema.toList.Pairwise (fun a b =>
         a.2.endBit ≤ b.2.startBit ∨ b.2.endBit ≤ a.2.startBit)) := by
  intro descs m hp hOK
  have hwf : RSchema.wfChain 0 (8 * m.size) m.schema = true := parseStruct_wf hp hOK
  constructor
  · intro nf hnf sgn w off pos hf
    have hm := (wfChain_mem m.schema 0 (8 * m.size) hwf nf hnf).2.2
    rw [hf, RField.wfB, Bool.and_eq_true, decide_eq_true_eq, decide_eq_true_eq] at hm
    exact hm
  · exact (wfChain_pairwise m.schema 0 (8 * m.size) hwf).imp (fun h => Or.inl h)

/-- Witness for C6 at the schema `{ a: "UInt8:4", b: "UInt8:4", c: "UInt16LE" }`. -/
theorem claim6_witness :
    ((∀ nf ∈ (RSchema.cons "a" (.bits false 4 0 0) (.cons "b" (.bits false 4 0 4)
          (.cons "c" (.prim .UInt16LE 2 1) .nil))).toList,
        ∀ (sgn : Bool) (w off pos : Nat),
          nf.2 = .bits sgn w off pos → 1 ≤ w ∧ pos + w ≤ 8) ∧
     (RSchema.cons "a" (.bits false 4 0 0) (.cons "b" (.bits false 4 0 4)
          (.cons "c" (.prim .UInt16LE 2 1) .nil))).toList.Pairwise (fun a b =>
       a.2.endBit ≤ b.2.startBit ∨ b.2.endBit ≤ a.2.startBit)) := by
  have h := claim6_disjoint_spans
    [("a", .token "UInt8:4"), ("b", .token "UInt8:4"), ("c", .token "UInt16LE")]
    ⟨.cons "a" (.bits false 4 0 0) (.cons "b" (.bits false 4 0 4)
      (.cons "c" (.prim .UInt16LE 2 1) .nil)), 3⟩ rfl (by decide)
  exact h

/-! ### Size additivity (C5) -/

theorem descsOK_kindsOK : ∀ (descs : List (String × FieldDesc)),
    descsOK descs = true → kindsOK (descs.map (fun nd => descKind nd.2)) = true := by
  intro descs
  induction descs with
  | nil => intro _; rfl
  | cons hd rest ih =>
    intro hOK
    rw [descsOK, List.all_cons, Bool.and_eq_true] at hOK
    obtain ⟨hd1, hrest⟩ := hOK
    rw [List.map_cons]
    match hpf : parseField hd.2 with
    | .error e =>
      rw [descKind, hpf, kindsOK]
      exact ih hrest
    | .ok (.bits sgn w) =>
      rw [descKind, hpf, kindsOK, Bool.and_eq_true, Bool.and_eq_true]
      rw [descOK, hpf] at hd1
      exact ⟨Bool.and_eq_true .. ▸ hd1, ih hrest⟩
    | .ok (.prim p) =>
      rw [descKind, hpf, kindsOK]
      exact ih hrest
    | .ok (.strP sz) =>
      rw [descKind, hpf, kindsOK]
      exact ih hrest
    | .ok (.nestedP msub) =>
      rw [descKind, hpf, kindsOK]
      exact ih hrest

theorem runSize_zero : ∀ (l : List FieldKind), kindsOK l = true →
    runSize 0 l = specSize l := by
  intro l hOK
  cases l with
  | nil => rfl
  | cons k r =>
    cases k with
    | byteField sz => simp [runSize, specSize]
    | bitField w =>
      rw [kindsOK, Bool.and_eq_true, Bool.and_eq_true,
        decide_eq_true_eq, decide_eq_true_eq] at hOK
      rw [runSize, if_neg (by omega), Nat.zero_add, specSize]

theorem parseSchemaAux_size :
    ∀ (descs : List (String × FieldDesc)) (bits bytes : Nat) (s : RSchema) (total : Nat),
      parseSchemaAux descs bits bytes = .ok (s, total) →
      descsOK descs = true → bits ≤ 8 →
      total = bytes + runSize bits (descs.map (fun nd => descKind nd.2)) := by
  intro descs
  induction descs with
  | nil =>
    intro bits bytes s total hp _ _
    rw [parseSchemaAux] at hp
    injection hp with hp
    obtain ⟨-, ht⟩ := (Prod.mk.injEq ..).mp hp
    rw [← ht, List.map_nil, runSize]
    by_cases hb0 : bits > 0
    · rw [if_pos hb0, if_pos hb0]
    · rw [if_neg hb0, if_neg hb0]; omega
  | cons hd rest ih =>
    intro bits bytes s total hp hOK hb
    obtain ⟨n, d⟩ := hd
    rw [descsOK, List.all_cons, Bool.and_eq_true] at hOK
    obtain ⟨hdOK, hrestOK'⟩ := hOK
    have hrestOK : descsOK rest = true := hrestOK'
    rw [parseSchemaAux] at hp
    rw [List.map_cons]
    match hpf : parseField d with
    | .error e => rw [hpf] at hp; exact Except.noConfusion hp
    | .ok (.bits sgn w) =>
      rw [hpf] at hp
      simp only at hp
      rw [show descKind (n, d).2 = .bitField w by rw [descKind, hpf]]
      rw [descOK, hpf, Bool.and_eq_true, decide_eq_true_eq, decide_eq_true_eq] at hdOK
      obtain ⟨hw1, hw8⟩ := hdOK
      by_cases hov : bits + w > 8
      · rw [if_pos hov, if_pos hov] at hp
        match hrec : parseSchemaAux rest (0 + w) (bytes + 1) with
        | .error e => rw [hrec] at hp; exact Except.noConfusion hp
        | .ok (s', total') =>
          rw [hrec] at hp
          injection hp with hp
          obtain ⟨-, ht⟩ := (Prod.mk.injEq ..).mp hp
          have hih := ih (0 + w) (bytes + 1) s' total' hrec hrestOK (by omega)
          rw [← ht, runSize, if_pos hov, hih, Nat.zero_add]
          omega
      · rw [if_neg hov, if_neg hov] at hp
        match hrec : parseSchemaAux rest (bits + w) bytes with
        | .error e => rw [hrec] at hp; exact Except.noConfusion hp
        | .ok (s', total') =>
          rw [hrec] at hp
          injection hp with hp
          obtain ⟨-, ht⟩ := (Prod.mk.injEq ..).mp hp
          have hih := ih (bits + w) bytes s' total' hrec hrestOK (by omega)
          rw [← ht, runSize, if_neg hov, hih]
    | .ok (.prim p) =>
      rw [hpf] at hp
      simp only at hp
      rw [show descKind (n, d).2 = .byteField p.byteSize by rw [descKind, hpf]]
      match hrec : parseSchemaAux rest 0
          ((if bits > 0 then bytes + 1 else bytes) + p.byteSize) with
      | .error e => rw [hrec] at hp; exact Except.noConfusion hp
      | .ok (s', total') =>
        rw [hrec] at hp
        injection hp with hp
        obtain ⟨-, ht⟩ := (Prod.mk.injEq ..).mp hp
        have hih := ih 0 _ s' total' hrec hrestOK (by omega)
        rw [← ht, runSize, hih, runSize_zero _ (descsOK_kindsOK rest hrestOK)]
        by_cases hb0 : bits > 0
        · rw [if_pos hb0, if_pos hb0]; omega
        · rw [if_neg hb0, if_neg hb0]; omega
    | .ok (.strP sz) =>
      rw [hpf] at hp
      simp only at hp
      rw [show descKind (n, d).2 = .byteField sz by rw [descKind, hpf]]
      match hrec : parseSchemaAux rest 0
          ((if bits > 0 then bytes + 1 else bytes) + sz) with
      | .error e => rw [hrec] at hp; exact Except.noConfusion hp
      | .ok (s', total') =>
        rw [hrec] at hp
        injection hp with hp
        obtain ⟨-, ht⟩ := (Prod.mk.injEq ..).mp hp
        have hih := ih 0 _ s' total' hrec hrestOK (by omega)
        rw [← ht, runSize, hih, runSize_zero _ (descsOK_kindsOK rest hrestOK)]
        by_cases hb0 : bits > 0
        · rw [if_pos hb0, if_pos hb0]; omega
        · rw [if_neg hb0, if_neg hb0]; omega
    | .ok (.nestedP msub) =>
      rw [hpf] at hp
      simp only at hp
      rw [show descKind (n, d).2 = .byteField msub.size by rw [descKind, hpf]]
      match hrec : parseSchemaAux rest 0
          ((if bits > 0 then bytes + 1 else bytes) + msub.size) with
      | .error e => rw [hrec] at hp; exact Except.noConfusion hp
      | .ok (s', total') =>
        rw [hrec] at hp
        injection hp with hp
        obtain ⟨-, ht⟩ := (Prod.mk.injEq ..).mp hp
        have hih := ih 0 _ s' total' hrec hrestOK (by omega)
        rw [← ht, runSize, hih, runSize_zero _ (descsOK_kindsOK rest hrestOK)]
        by_cases hb0 : bits > 0
        · rw [if_pos hb0, if_pos hb0]; omega
        · rw [if_neg hb0, if_neg hb0]; omega

/-- C5: the total size of a layout compiled from well-formed descriptors
equals the sum of all non-bitfield byte sizes plus one byte per started
byte of each maximal packed bitfield run (an open trailing byte counts as
a full byte), as computed by the offset-free specification `specSize`. -/
theorem claim5_size_additivity :
    ∀ (descs : List (String × FieldDesc)) (m : StructModel),
      parseStruct descs = .ok m → descsOK descs = true →
      m.size = specSize (descs.map (fun nd => descKind nd.2)) := by
  intro descs m hp hOK
  rw [parseStruct] at hp
  match hrec : parseSchemaAux descs 0 0 with
  | .error e => rw [hrec] at hp; exact Except.noConfusion hp
  | .ok (s, total) =>
    rw [hrec] at hp
    injection hp with hp
    rw [← hp]
    have := parseSchemaAux_size descs 0 0 s total hrec hOK (by omega)
    rw [runSize_zero _ (descsOK_kindsOK descs hOK)] at this
    simpa using this

/-- Witness for C5: the concrete schema of C2 has size
`specSize [bit 4, bit 4, byte 2] = 3`. -/
theorem claim5_witness :
    (3 : Nat) = specSize ([("a", FieldDesc.token "UInt8:4"), ("b", .token "UInt8:4"),
      ("c", .token "UInt16LE")].map (fun nd => descKind nd.2)) :=
  claim5_size_additivity _
    ⟨.cons "a" (.bits false 4 0 0) (.cons "b" (.bits false 4 0 4)
      (.cons "c" (.prim .UInt16LE 2 1) .nil)), 3⟩ rfl (by decide)

/-! ### Decode totality on sufficiently long buffers -/

theorem names_eq_toList_map : ∀ (s : RSchema), s.names = s.toList.map Prod.fst := by
  intro s
  induction s using RSchema.inductionOn with
  | h0 => rfl
  | h1 n f r ih => rw [RSchema.names, RSchema.toList, List.map_cons, ih]

mutual
theorem decodeField_total : ∀ (f : RField) (buf : List Nat), f.wfB = true →
    f.endBit ≤ 8 * buf.length → ∃ v, decodeField f buf = .ok v
  | .prim p sz off, buf, hwf, hend => by
    rw [RField.wfB, beq_iff_eq] at hwf
    rw [RField.endBit] at hend
    have hread : readPrimM p off buf =
        .ok (if p.signed then asIntN (8 * p.byteSize)
          (Int.ofNat (bytesToNatLE (if p.bigEndian
            then (getBytes buf off p.byteSize).reverse
            else getBytes buf off p.byteSize)))
        else Int.ofNat (bytesToNatLE (if p.bigEndian
            then (getBytes buf off p.byteSize).reverse
            else getBytes buf off p.byteSize))) := by
      rw [readPrimM, if_neg (by omega)]
    exact ⟨_, by rw [decodeField, hread]⟩
  | .strF sz off, buf, _, _ => ⟨_, rfl⟩
  | .bits sgn w off pos, buf, _, _ => ⟨_, rfl⟩
  | .nested sub ss off, buf, hwf, hend => by
    rw [RField.wfB] at hwf
    rw [RField.endBit] at hend
    have hlen : (getBytes buf off ss).length = ss := by
      rw [getBytes_length]; omega
    obtain ⟨vals, hvals, -⟩ := decodeFields_total sub (getBytes buf off ss) 0
      (by rw [hlen]; exact hwf)
    exact ⟨_, by rw [decodeField, hvals]⟩

theorem decodeFields_total : ∀ (s : RSchema) (buf : List Nat) (c : Nat),
    RSchema.wfChain c (8 * buf.length) s = true →
    ∃ vals, decodeFields s buf = .ok vals ∧ vals.map Prod.fst = s.names
  | .nil, buf, c, _ => ⟨[], rfl, rfl⟩
  | .cons n f r, buf, c, h => by
    rw [RSchema.wfChain, Bool.and_eq_true, Bool.and_eq_true, decide_eq_true_eq] at h
    obtain ⟨⟨hc, hwfB⟩, hchain⟩ := h
    obtain ⟨v, hv⟩ := decodeField_total f buf hwfB (wfChain_le r f.endBit _ hchain)
    obtain ⟨vals, hvals, hnames⟩ := decodeFields_total r buf f.endBit hchain
    exact ⟨(n, v) :: vals, by rw [decodeFields, hv, hvals],
      by rw [List.map_cons, hnames, RSchema.names]⟩
end

/-! ### Encoding length preservation and the empty record -/

theorem writeBitFieldM_length {sgn w off pos v buf buf'}
    (h : writeBitFieldM sgn w off pos v buf = .ok buf') : buf'.length = buf.length := by
  rw [writeBitFieldM] at h
  split at h
  · exact Except.noConfusion h
  · injection h with h
    rw [← h]
    simp

theorem writePrimM_length {p off v buf buf'}
    (h : writePrimM p off v buf = .ok buf') : buf'.length = buf.length := by
  rw [writePrimM] at h
  split at h
  · exact Except.noConfusion h
  · split at h
    · exact Except.noConfusion h
    · injection h with h
      rw [← h, length_writeBytesAt]

/-- Unfolding equation for `writeFieldM` (stated once so rewriting does not
pick up the conditional catch-all equations generated by the compiler). -/
theorem writeFieldM_eq (p : Prim) (off : Nat) (v : JSVal) (buf : List Nat) :
    writeFieldM p off v buf = (if p.isBig = true then
      match v with
      | .big i => writePrimM p off i buf
      | _ => Except.error ("Expected a BigInt for field \"" ++ p.tokenStr ++
          "\", but received " ++ v.typeofStr)
    else
      match v with
      | .num i => writePrimM p off i buf
      | _ => Except.error ("Expected a number for field \"" ++ p.tokenStr ++
          "\", but received " ++ v.typeofStr)) := rfl

/-- `writeFieldM` never changes the buffer length when it succeeds. -/
theorem writeFieldM_length {p : Prim} {off : Nat} {v : JSVal} {buf buf' : List Nat}
    (h : writeFieldM p off v buf = .ok buf') : buf'.length = buf.length := by
  rw [writeFieldM_eq] at h
  split at h <;> split at h <;>
    first | exact writePrimM_length h | exact Except.noConfusion h

theorem strWriteM_length {off sz sb buf buf'}
    (h : strWriteM off sz sb buf = .ok buf') : buf'.length = buf.length := by
  rw [strWriteM] at h
  split at h
  · exact Except.noConfusion h
  · injection h with h
    rw [← h, length_writeBytesAt]

theorem encodeField_length : ∀ {name : String} {f : RField} {v : JSVal}
    {buf buf' : List Nat}, encodeField name f v buf = .ok buf' →
    buf'.length = buf.length := by
  intro name f v buf buf' h
  cases f with
  | nested sub ss off =>
    cases v with
    | obj subData =>
      rw [show encodeField name (.nested sub ss off) (.obj subData) buf =
          (match encodeFields sub subData (List.replicate ss 0) with
            | .error e => .error e
            | .ok nb =>
              if off + nb.length ≤ buf.length then .ok (writeBytesAt buf off nb)
              else .error "Source is too large") from rfl] at h
      match he : encodeFields sub subData (List.replicate ss 0) with
      | .error e => rw [he] at h; exact Except.noConfusion h
      | .ok nb =>
        rw [he] at h
        have h' : (if off + nb.length ≤ buf.length then Except.ok (writeBytesAt buf off nb)
            else Except.error "Source is too large") = Except.ok buf' := h
        split at h'
        · injection h' with h'
          rw [← h', length_writeBytesAt]
        · exact Except.noConfusion h' 
    | num i =>
      rw [show encodeField name (.nested sub ss off) (.num i) buf =
          (if (JSVal.num i).truthy then
            .error ("Expected an object of fields, but received " ++ (JSVal.num i).typeofStr)
          else .error ("Expected an object for field " ++ name ++ ", but received " ++
            (JSVal.num i).typeofStr)) from rfl] at h
      split at h <;> exact Except.noConfusion h
    | big i =>
      rw [show encodeField name (.nested sub ss off) (.big i) buf =
          (if (JSVal.big i).truthy then
            .error ("Expected an object of fields, but received " ++ (JSVal.big i).typeofStr)
          else .error ("Expected an object for field " ++ name ++ ", but received " ++
            (JSVal.big i).typeofStr)) from rfl] at h
      split at h <;> exact Except.noConfusion h
    | str b =>
      rw [show encodeField name (.nested sub ss off) (.str b) buf =
          (if (JSVal.str b).truthy then
            .error ("Expected an object of fields, but received " ++ (JSVal.str b).typeofStr)
          else .error ("Expected an object for field " ++ name ++ ", but received " ++
            (JSVal.str b).typeofStr)) from rfl] at h
      split at h <;> exact Except.noConfusion h
    | nullV => exact Except.noConfusion h
    | undef => exact Except.noConfusion h
    | fn s => exact Except.noConfusion h
    | boolV b =>
      rw [show encodeField name (.nested sub ss off) (.boolV b) buf =
          (if (JSVal.boolV b).truthy then
            .error ("Expected an object of fields, but received " ++ (JSVal.boolV b).typeofStr)
          else .error ("Expected an object for field " ++ name ++ ", but received " ++
            (JSVal.boolV b).typeofStr)) from rfl] at h
      split at h <;> exact Except.noConfusion h
  | bits sgn w off pos =>
    cases v
    case num i => exact writeBitFieldM_length h
    all_goals exact Except.noConfusion h
  | prim p sz off =>
    have hred : encodeField name (.prim p sz off) v buf = writeFieldM p off v buf := rfl
    rw [hred] at h
    exact writeFieldM_length h
  | strF sz off =>
    cases v
    case str b => exact strWriteM_length h
    all_goals exact Except.noConfusion h

theorem encodeFields_length : ∀ (s : RSchema) (data : List (String × JSVal))
    (buf buf' : List Nat), encodeFields s data buf = .ok buf' →
    buf'.length = buf.length := by
  intro s
  induction s using RSchema.inductionOn with
  | h0 =>
    intro data buf buf' h
    injection h with h
    rw [h]
  | h1 n f r ih =>
    intro data buf buf' h
    rw [encodeFields] at h
    match hl : data.lookup n with
    | none =>
      rw [hl] at h
      simp only at h
      split at h
      · match he : encodeField n f (protoMember n) buf with
        | .error e => rw [he] at h; exact Except.noConfusion h
        | .ok b2 =>
          rw [he] at h
          rw [ih data b2 buf' h, encodeField_length he]
      · exact ih data buf buf' h
    | some v =>
      rw [hl] at h
      simp only at h
      match he : encodeField n f v buf with
      | .error e => rw [he] at h; exact Except.noConfusion h
      | .ok b2 =>
        rw [he] at h
        rw [ih data b2 buf' h, encodeField_length he]

example :
    parseStruct [("a", .token "UInt8:4"), ("b", .token "UInt8:4"), ("c", .token "UInt16LE")] =
      .ok ⟨.cons "a" (.bits false 4 0 0) (.cons "b" (.bits false 4 0 4)
        (.cons "c" (.prim .UInt16LE 2 1) .nil)), 3⟩ :=
  rfl

example : parseStruct [("f", .token "Foo:4")] = .error "Invalid bit field format: Foo:4" := rfl

example : parseStruct [("f", .token "Foo")] = .error "Unsupported primitive type: Foo" := rfl

/-- C2: the schema `{ a: "UInt8:4", b: "UInt8:4", c: "UInt16LE" }` compiles
to a 3-byte layout (bitfields `a`, `b` packed into byte 0 at bit positions
0 and 4, primitive `c` at byte offset 1); encoding `{a:10, b:5, c:300}`
yields bytes `0x5A, 0x2C, 0x01`; decoding those bytes reproduces the
record. -/
theorem claim2_concrete_scenario :
    parseStruct [("a", .token "UInt8:4"), ("b", .token "UInt8:4"), ("c", .token "UInt16LE")] =
      .ok ⟨.cons "a" (.bits false 4 0 0) (.cons "b" (.bits false 4 0 4)
        (.cons "c" (.prim .UInt16LE 2 1) .nil)), 3⟩ ∧
    toBufferM ⟨.cons "a" (.bits false 4 0 0) (.cons "b" (.bits false 4 0 4)
        (.cons "c" (.prim .UInt16LE 2 1) .nil)), 3⟩
      (.obj [("a", .num 10), ("b", .num 5), ("c", .num 300)]) = .ok [0x5A, 0x2C, 0x01] ∧
    toObjectM ⟨.cons "a" (.bits false 4 0 0) (.cons "b" (.bits false 4 0 4)
        (.cons "c" (.prim .UInt16LE 2 1) .nil)), 3⟩ [0x5A, 0x2C, 0x01] =
      .ok (.obj [("a", .num 10), ("b", .num 5), ("c", .num 300)]) :=
  ⟨rfl, rfl, rfl⟩

/-- C10: `toBuffer` rejects every argument that is not an object — null,
undefined, numbers, bigints, strings, booleans — with the
`Expected an object of fields` error, before any field is written. -/
theorem claim10_toBuffer_rejects_nonobject :
    ∀ (m : StructModel) (v : JSVal), v.isObj = false →
      toBufferM m v = .error ("Expected an object of fields, but received " ++ v.typeofStr) := by
  intro m v h
  cases v <;> simp_all [toBufferM, JSVal.isObj]

/-- Witness for C10 at `null` (note `typeof null` is `"object"`). -/
theorem claim10_witness :
    toBufferM ⟨.nil, 0⟩ .nullV =
      .error ("Expected an object of fields, but received " ++ JSVal.typeofStr .nullV) :=
  claim10_toBuffer_rejects_nonobject ⟨.nil, 0⟩ .nullV rfl

/-- C3: writing a bitfield of width `w` (any grammar width 1..8) raises a
`RangeError` exactly for values outside `[0, 2^w - 1]` (unsigned) resp.
`[-2^(w-1), 2^(w-1) - 1]` (signed); concretely, through `toBuffer` on a
4-bit field: unsigned rejects 16 and accepts 15, signed rejects 8 and -9
and accepts 7 and -8. -/
theorem claim3_bitfield_range_check :
    (∀ (sgn : Bool) (w off pos : Nat) (v : Int) (buf : List Nat),
        1 ≤ w → w ≤ 8 →
        ((∃ e, writeBitFieldM sgn w off pos v buf = .error e) ↔
          (v < bitfieldMin sgn w ∨ v > bitfieldMax sgn w))) ∧
    (∃ e, toBufferM ⟨.cons "x" (.bits false 4 0 0) .nil, 1⟩ (.obj [("x", .num 16)]) = .error e) ∧
    toBufferM ⟨.cons "x" (.bits false 4 0 0) .nil, 1⟩ (.obj [("x", .num 15)]) = .ok [15] ∧
    (∃ e, toBufferM ⟨.cons "x" (.bits true 4 0 0) .nil, 1⟩ (.obj [("x", .num 8)]) = .error e) ∧
    (∃ e, toBufferM ⟨.cons "x" (.bits true 4 0 0) .nil, 1⟩ (.obj [("x", .num (-9))]) = .error e) ∧
    toBufferM ⟨.cons "x" (.bits true 4 0 0) .nil, 1⟩ (.obj [("x", .num 7)]) = .ok [7] ∧
    toBufferM ⟨.cons "x" (.bits true 4 0 0) .nil, 1⟩ (.obj [("x", .num (-8))]) = .ok [8] := by
  refine ⟨?_, ⟨_, rfl⟩, rfl, ⟨_, rfl⟩, ⟨_, rfl⟩, rfl, rfl⟩
  intro sgn w off pos v buf _ _
  constructor
  · intro ⟨e, he⟩
    by_contra hc
    rw [writeBitFieldM, if_neg hc] at he
    exact Except.noConfusion he
  · intro h
    exact ⟨_, by rw [writeBitFieldM, if_pos h]⟩

/-- Witness for C3: a 4-bit unsigned field rejects the value 16. -/
theorem claim3_witness :
    ∃ e, writeBitFieldM false 4 0 0 16 [0] = .error e :=
  ((claim3_bitfield_range_check.1 false 4 0 0 16 [0] (by decide) (by decide)).mpr (by decide))

/-- C4 fails on the code: the runtime check of `parseBitField` accepts any
decimal width, so the tokens `UInt8:9` and `UInt8:0` — both outside the
`<Int8|UInt8>:<1..8>` grammar — compile without error (a 9-bit field is
placed at offset 1 in a 2-byte layout; a 0-bit field yields a 0-byte
layout). -/
theorem claim4_counterexample :
    parseStruct [("f", .token "UInt8:9")] = .ok ⟨.cons "f" (.bits false 9 1 0) .nil, 2⟩ ∧
    parseStruct [("g", .token "UInt8:0")] = .ok ⟨.cons "g" (.bits false 0 0 0) .nil, 0⟩ :=
  ⟨rfl, rfl⟩

/-- A malformed token makes `parseField` fail. -/
theorem parseField_badToken (s : String) (h : badTokenB s = true) :
    ∃ e, parseField (.token s) = .error e := by
  rw [badTokenB] at h
  by_cases hc : strContainsColon s
  · rw [if_pos hc] at h
    refine ⟨"Invalid bit field format: " ++ s, ?_⟩
    rw [parseField, if_pos hc, parseBitField]
    match hs : stripColonForm s.data with
    | some (sgn, ds) =>
      rw [hs] at h
      simp only [Bool.not_eq_true'] at h
      simp [h]
    | none => simp
  · rw [if_neg hc] at h
    refine ⟨"Unsupported primitive type: " ++ s, ?_⟩
    rw [parseField, if_neg hc, parsePrimitiveField]
    match hs : primNames.lookup s with
    | some p => rw [hs] at h; simp at h
    | none => simp

/-- If any schema entry carries a malformed token, `parseSchemaAux` fails
whatever the cursor state. -/
theorem parseSchemaAux_badToken :
    ∀ (descs : List (String × FieldDesc)) (name s : String) (bits bytes : Nat),
      (name, FieldDesc.token s) ∈ descs → badTokenB s = true →
      ∃ e, parseSchemaAux descs bits bytes = .error e := by
  intro descs
  induction descs with
  | nil => intro _ _ _ _ h _; exact absurd h (List.not_mem_nil _)
  | cons hd rest ih =>
    intro name s bits bytes hmem hbad
    rcases List.mem_cons.mp hmem with heq | htail
    · subst heq
      obtain ⟨e, he⟩ := parseField_badToken s hbad
      exact ⟨e, by rw [parseSchemaAux, he]⟩
    · obtain ⟨n, d⟩ := hd
      match hp : parseField d with
      | .error e => exact ⟨e, by rw [parseSchemaAux, hp]⟩
      | .ok (.bits sgn w) =>
        obtain ⟨e, he⟩ := ih name s _ _ htail hbad
        exact ⟨e, by rw [parseSchemaAux, hp]; simp only; rw [he]⟩
      | .ok (.prim p) =>
        obtain ⟨e, he⟩ := ih name s _ _ htail hbad
        exact ⟨e, by rw [parseSchemaAux, hp]; simp only; rw [he]⟩
      | .ok (.strP sz) =>
        obtain ⟨e, he⟩ := ih name s _ _ htail hbad
        exact ⟨e, by rw [parseSchemaAux, hp]; simp only; rw [he]⟩
      | .ok (.nestedP msub) =>
        obtain ⟨e, he⟩ := ih name s _ _ htail hbad
        exact ⟨e, by rw [parseSchemaAux, hp]; simp only; rw [he]⟩

/-- C4 (amended): constructing a layout fails with an error for every
token that matches neither the runtime pattern `(Int8|UInt8):\d+` (for
tokens containing a colon) nor a supported primitive name, excluding the
`Object.prototype` property names, which the plain-object `typeSizes`
lookup inherits as truthy members so the source accepts them without an
error; widths outside 1..8 that still match the pattern are likewise
accepted without error. -/
theorem claim4_amended_token_rejection :
    ∀ (descs : List (String × FieldDesc)) (name s : String),
      (name, FieldDesc.token s) ∈ descs → badTokenB s = true →
      ∃ e, parseStruct descs = .error e := by
  intro descs name s hmem hbad
  obtain ⟨e, he⟩ := parseSchemaAux_badToken descs name s 0 0 hmem hbad
  exact ⟨e, by rw [parseStruct, he]⟩

/-- Witness for C4 (amended) at the unsupported token `Foo` and the
non-grammar bitfield token `UInt8:x`. -/
theorem claim4_witness :
    (∃ e, parseStruct [("f", FieldDesc.token "Foo")] = .error e) ∧
    (∃ e, parseStruct [("g", FieldDesc.token "UInt8:x")] = .error e) :=
  ⟨claim4_amended_token_rejection _ "f" "Foo" (by simp) (by decide),
   claim4_amended_token_rejection _ "g" "UInt8:x" (by simp) (by decide)⟩

/-- C9 fails on the code: decoding an undersized buffer is not error-free.
The compiled layout of `{ c: "UInt16LE" }` needs 2 bytes, and `toObject`
on a 1-byte buffer propagates the bounds error of the Node
`readUInt16LE` accessor instead of returning a record. -/
theorem claim9_counterexample :
    parseStruct [("c", .token "UInt16LE")] = .ok ⟨.cons "c" (.prim .UInt16LE 2 0) .nil, 2⟩ ∧
    toObjectM ⟨.cons "c" (.prim .UInt16LE 2 0) .nil, 2⟩ [0] =
      .error "Attempt to access memory outside buffer bounds for UInt16LE" :=
  ⟨rfl, rfl⟩

/-- C9 (amended): `toObject` has no explicit length pre-check, and for
bitfield-only schemas it indeed never fails — a missing byte is read as 0
through the `undefined` coercion of the bit operations — but a primitive
field whose span lies beyond the buffer makes the underlying Node read
method raise a `RangeError`, which `toObject` propagates. -/
theorem claim9_amended_short_buffer :
    (∀ (s : RSchema) (buf : List Nat), allBitsB s = true →
        ∃ vals, decodeFields s buf = .ok vals) ∧
    toObjectM ⟨.cons "c" (.prim .UInt16LE 2 0) .nil, 2⟩ [0] =
      .error "Attempt to access memory outside buffer bounds for UInt16LE" := by
  refine ⟨?_, rfl⟩
  intro s
  induction s using RSchema.inductionOn with
  | h0 => exact fun _ _ => ⟨[], rfl⟩
  | h1 n f rest ih =>
    intro buf hall
    cases f with
    | bits sgn w off pos =>
      simp only [allBitsB, Bool.true_and] at hall
      obtain ⟨vals, hv⟩ := ih buf hall
      exact ⟨_, by rw [decodeFields, decodeField]; simp only; rw [hv]⟩
    | prim p sz off => simp [allBitsB] at hall
    | strF sz off => simp [allBitsB] at hall
    | nested sub ss off => simp [allBitsB] at hall

/-- Witness for C9 (amended): a bitfield-only schema decodes even the
empty buffer. -/
theorem claim9_witness :
    ∃ vals, decodeFields (.cons "x" (.bits false 4 2 0) .nil) [] = .ok vals :=
  claim9_amended_short_buffer.1 (.cons "x" (.bits false 4 2 0) .nil) [] (by decide)

/-- C8 fails on the code as stated: a *truthy* non-record value for a
nested field (here the number 5 for field `alpha`) is rejected by the
recursive `toBuffer` call with the generic
`Expected an object of fields, but received number` error, which does not
name the field (`splitOn` finds no occurrence of `alpha`). -/
theorem claim8_counterexample :
    toBufferM ⟨.cons "alpha" (.nested .nil 0 0) .nil, 0⟩ (.obj [("alpha", .num 5)]) =
      .error "Expected an object of fields, but received number" ∧
    occursIn "alpha".data ("Expected an object of fields, but received number").data = false :=
  ⟨rfl, rfl⟩

/-- C8 (amended): when the `toBuffer` loop reaches a nested-layout field
whose value is present but not a record, it raises an error: one naming
the field when the value is falsy (null, undefined, 0, empty string,
false), and the recursive encoder's generic type error — which reports
the received type but not the field name — when the value is truthy. -/
theorem claim8_amended_nested_type_mismatch :
    ∀ (name : String) (sub : RSchema) (subSize off total : Nat) (rest : RSchema)
      (data : List (String × JSVal)) (v : JSVal),
      data.lookup name = some v → v.isObj = false →
      ((∃ e, toBufferM ⟨.cons name (.nested sub subSize off) rest, total⟩ (.obj data) =
          .error e) ∧
       (v.truthy = false →
         toBufferM ⟨.cons name (.nested sub subSize off) rest, total⟩ (.obj data) =
           .error ("Expected an object for field " ++ name ++ ", but received " ++ v.typeofStr)) ∧
       (v.truthy = true →
         toBufferM ⟨.cons name (.nested sub subSize off) rest, total⟩ (.obj data) =
           .error ("Expected an object of fields, but received " ++ v.typeofStr))) := by
  intro name sub subSize off total rest data v hlook hobj
  have hfield : encodeField name (.nested sub subSize off) v (List.replicate total 0) =
      if v.truthy then .error ("Expected an object of fields, but received " ++ v.typeofStr)
      else .error ("Expected an object for field " ++ name ++ ", but received " ++
        v.typeofStr) := by
    cases v with
    | obj _ => exact absurd hobj (by simp [JSVal.isObj])
    | num i => rfl
    | big i => rfl
    | str b => rfl
    | nullV => rfl
    | undef => rfl
    | boolV b => rfl
    | fn s => rfl
  have hred : toBufferM ⟨.cons name (.nested sub subSize off) rest, total⟩ (.obj data) =
      if v.truthy then .error ("Expected an object of fields, but received " ++ v.typeofStr)
      else .error ("Expected an object for field " ++ name ++ ", but received " ++
        v.typeofStr) := by
    rw [toBufferM]
    simp only
    rw [encodeFields, hlook]
    simp only
    rw [hfield]
    by_cases ht : v.truthy
    · rw [if_pos ht]
    · rw [if_neg ht]
  refine ⟨?_, ?_, ?_⟩
  · by_cases ht : v.truthy
    · exact ⟨_, by rw [hred, if_pos ht]⟩
    · exact ⟨_, by rw [hred, if_neg ht]⟩
  · intro hf
    rw [hred, if_neg (by simp [hf])]
  · intro htr
    rw [hred, if_pos htr]

/-- Witness for C8 (amended): a `null` value for the nested field `alpha`
produces the error naming the field. -/
theorem claim8_witness :
    toBufferM ⟨.cons "alpha" (.nested .nil 0 0) .nil, 0⟩ (.obj [("alpha", .nullV)]) =
      .error ("Expected an object for field " ++ "alpha" ++ ", but received " ++
        JSVal.typeofStr .nullV) :=
  (claim8_amended_nested_type_mismatch "alpha" .nil 0 0 0 .nil
    [("alpha", .nullV)] .nullV rfl rfl).2.1 rfl

/-! ### Round-trip (C1) -/

theorem parseField_token_shape (t : String) {pf : ParsedField}
    (h : parseField (.token t) = .ok pf) :
    (∃ sgn w, pf = .bits sgn w) ∨ (∃ p, pf = .prim p) := by
  rw [parseField] at h
  split at h
  · match hb : parseBitField t with
    | .ok (sgn, w) =>
      rw [hb] at h
      injection h with h
      exact Or.inl ⟨sgn, w, h.symm⟩
    | .error e => rw [hb] at h; exact Except.noConfusion h
  · match hb : parsePrimitiveField t with
    | .ok p =>
      rw [hb] at h
      injection h with h
      exact Or.inr ⟨p, h.symm⟩
    | .error e => rw [hb] at h; exact Except.noConfusion h

theorem parseSchemaAux_tokens :
    ∀ (ts : List (String × String)) (bits bytes : Nat) (s : RSchema) (total : Nat),
      parseSchemaAux (tokenDescs ts) bits bytes = .ok (s, total) →
      allTokensB s = true := by
  intro ts
  induction ts with
  | nil =>
    intro bits bytes s total hp
    rw [show tokenDescs [] = [] from rfl, parseSchemaAux] at hp
    injection hp with hp
    obtain ⟨hs, -⟩ := (Prod.mk.injEq ..).mp hp
    rw [← hs]
    rfl
  | cons hd rest ih =>
    intro bits bytes s total hp
    obtain ⟨n, t⟩ := hd
    rw [show tokenDescs ((n, t) :: rest) = (n, .token t) :: tokenDescs rest from rfl,
      parseSchemaAux] at hp
    match hpf : parseField (.token t) with
    | .error e => rw [hpf] at hp; exact Except.noConfusion hp
    | .ok (.bits sgn w) =>
      rw [hpf] at hp
      simp only at hp
      match hrec : parseSchemaAux (tokenDescs rest)
          ((if bits + w > 8 then 0 else bits) + w)
          (if bits + w > 8 then bytes + 1 else bytes) with
      | .error e => rw [hrec] at hp; exact Except.noConfusion hp
      | .ok (s', total') =>
        rw [hrec] at hp
        injection hp with hp
        obtain ⟨hs, -⟩ := (Prod.mk.injEq ..).mp hp
        rw [← hs]
        show (true && allTokensB s') = true
        rw [Bool.true_and]
        exact ih _ _ _ _ hrec
    | .ok (.prim p) =>
      rw [hpf] at hp
      simp only at hp
      match hrec : parseSchemaAux (tokenDescs rest) 0
          ((if bits > 0 then bytes + 1 else bytes) + p.byteSize) with
      | .error e => rw [hrec] at hp; exact Except.noConfusion hp
      | .ok (s', total') =>
        rw [hrec] at hp
        injection hp with hp
        obtain ⟨hs, -⟩ := (Prod.mk.injEq ..).mp hp
        rw [← hs]
        show (true && allTokensB s') = true
        rw [Bool.true_and]
        exact ih _ _ _ _ hrec
    | .ok (.strP sz) =>
      rcases parseField_token_shape t hpf with ⟨sgn, w, h⟩ | ⟨p, h⟩ <;>
        exact ParsedField.noConfusion h
    | .ok (.nestedP msub) =>
      rcases parseField_token_shape t hpf with ⟨sgn, w, h⟩ | ⟨p, h⟩ <;>
        exact ParsedField.noConfusion h

theorem parseStruct_tokens {ts : List (String × String)} {m : StructModel}
    (hp : parseStruct (tokenDescs ts) = .ok m) : allTokensB m.schema = true := by
  rw [parseStruct] at hp
  match hrec : parseSchemaAux (tokenDescs ts) 0 0 with
  | .error e => rw [hrec] at hp; exact Except.noConfusion hp
  | .ok (s, total) =>
    rw [hrec] at hp
    injection hp with hp
    rw [← hp]
    exact parseSchemaAux_tokens ts 0 0 s total hrec

theorem aligned_lookup : ∀ (s : RSchema) (data : List (String × JSVal)),
    alignedB s data = true → s.names.Nodup →
    ∀ nf ∈ s.toList, ∃ v, data.lookup nf.1 = some v ∧ inRangeB nf.2 v = true := by
  intro s
  induction s using RSchema.inductionOn with
  | h0 => intro data _ _ nf hnf; exact absurd hnf (List.not_mem_nil nf)
  | h1 n f r ih =>
    intro data h hnd nf hnf
    cases data with
    | nil => exact Bool.noConfusion (show false = true from h)
    | cons hd ds =>
      obtain ⟨n', v⟩ := hd
      have h' : (n == n' && inRangeB f v && alignedB r ds) = true := h
      rw [Bool.and_eq_true, Bool.and_eq_true, beq_iff_eq] at h'
      obtain ⟨⟨hnn', hin⟩, hal⟩ := h'
      have hnd' := List.nodup_cons.mp (show (n :: r.names).Nodup from hnd)
      rcases List.mem_cons.mp (show nf ∈ (n, f) :: r.toList from hnf) with rfl | hm
      · refine ⟨v, ?_, hin⟩
        show List.lookup n ((n', v) :: ds) = some v
        rw [List.lookup, show (n == n') = true from beq_iff_eq.mpr hnn']
      · have hmem : nf.1 ∈ r.names := by
          rw [names_eq_toList_map]
          exact List.mem_map.mpr ⟨nf, hm, rfl⟩
        have hne : (nf.1 == n') = false := by
          rw [beq_eq_false_iff_ne]
          intro hEq
          exact hnd'.1 (show n ∈ r.names by rw [hnn', ← hEq]; exact hmem)
        obtain ⟨v', hv', hin'⟩ := ih ds hal hnd'.2 nf hm
        refine ⟨v', ?_, hin'⟩
        show List.lookup nf.1 ((n', v) :: ds) = some v'
        rw [List.lookup, hne]
        exact hv'

theorem lookups_congr : ∀ (s : RSchema) (data data' : List (String × JSVal)),
    (∀ x ∈ s.names, data.lookup x = data'.lookup x) →
    lookups s data = lookups s data' := by
  intro s
  induction s using RSchema.inductionOn with
  | h0 => intro data data' _; rfl
  | h1 n f r ih =>
    intro data data' h
    show (n, (data.lookup n).getD (.num 0)) :: lookups r data =
      (n, (data'.lookup n).getD (.num 0)) :: lookups r data'
    rw [h n (show n ∈ n :: r.names from List.mem_cons_self n _),
      ih data data' (fun x hx => h x (List.mem_cons_of_mem n hx))]

theorem lookups_aligned : ∀ (s : RSchema) (data : List (String × JSVal)),
    alignedB s data = true → s.names.Nodup → lookups s data = data := by
  intro s
  induction s using RSchema.inductionOn with
  | h0 =>
    intro data h _
    cases data with
    | nil => rfl
    | cons hd ds => exact Bool.noConfusion (show false = true from h)
  | h1 n f r ih =>
    intro data h hnd
    cases data with
    | nil => exact Bool.noConfusion (show false = true from h)
    | cons hd ds =>
      obtain ⟨n', v⟩ := hd
      have h' : (n == n' && inRangeB f v && alignedB r ds) = true := h
      rw [Bool.and_eq_true, Bool.and_eq_true, beq_iff_eq] at h'
      obtain ⟨⟨rfl, hin⟩, hal⟩ := h'
      have hnd' := List.nodup_cons.mp (show (n :: r.names).Nodup from hnd)
      show (n, (List.lookup n ((n, v) :: ds)).getD (.num 0)) :: lookups r ((n, v) :: ds) =
        (n, v) :: ds
      have hl : List.lookup n ((n, v) :: ds) = some v := by
        rw [List.lookup, show (n == n) = true from beq_self_eq_true n]
      have hcongr : lookups r ((n, v) :: ds) = lookups r ds := by
        apply lookups_congr
        intro x hx
        have hxn : (x == n) = false := by
          rw [beq_eq_false_iff_ne]
          intro hEq
          exact hnd'.1 (hEq ▸ hx)
        rw [List.lookup, hxn]
      rw [hl, hcongr, ih ds hal hnd'.2]
      rfl

/-- Encoding a record whose looked-up values are all present and in range
into a schema of token fields succeeds, preserves the buffer length and
byte bounds, leaves every bit below the chain cursor untouched, and the
written buffer decodes back to exactly the looked-up record. -/
theorem encodeFields_sound : ∀ (s : RSchema) (data : List (String × JSVal))
    (buf : List Nat) (c : Nat),
    allTokensB s = true →
    RSchema.wfChain c (8 * buf.length) s = true →
    (∀ b ∈ buf, b < 256) →
    (∀ nf ∈ s.toList, ∃ v, data.lookup nf.1 = some v ∧ inRangeB nf.2 v = true) →
    ∃ buf', encodeFields s data buf = .ok buf' ∧
      buf'.length = buf.length ∧ (∀ b ∈ buf', b < 256) ∧
      (∀ i, i < c → bitAt buf' i = bitAt buf i) ∧
      decodeFields s buf' = .ok (lookups s data) := by
  intro s
  induction s using RSchema.inductionOn with
  | h0 =>
    intro data buf c _ _ hbytes _
    exact ⟨buf, rfl, rfl, hbytes, fun i _ => rfl, rfl⟩
  | h1 n f r ih =>
    intro data buf c htok hwf hbytes hlk
    have hwf' : (decide (c ≤ f.startBit) && RField.wfB f &&
        RSchema.wfChain f.endBit (8 * buf.length) r) = true := hwf
    rw [Bool.and_eq_true, Bool.and_eq_true, decide_eq_true_eq] at hwf'
    obtain ⟨⟨hc, hfwf⟩, hchain⟩ := hwf'
    obtain ⟨v, hv, hin⟩ := hlk (n, f) (List.mem_cons_self _ _)
    have hlk' : ∀ nf ∈ r.toList, ∃ v', data.lookup nf.1 = some v' ∧
        inRangeB nf.2 v' = true := fun nf hm => hlk nf (List.mem_cons_of_mem _ hm)
    have hend := wfChain_le r f.endBit (8 * buf.length) hchain
    cases f with
    | bits sgn w off pos =>
      have htokr : allTokensB r = true := by
        have h' : (true && allTokensB r) = true := htok
        rwa [Bool.true_and] at h'
      have hfwf' : (decide (1 ≤ w) && decide (pos + w ≤ 8)) = true := hfwf
      rw [Bool.and_eq_true, decide_eq_true_eq, decide_eq_true_eq] at hfwf'
      obtain ⟨hw1, hpw⟩ := hfwf'
      rw [RField.endBit] at hend
      have hc' : c ≤ 8 * off + pos := hc
      have hoff : off < buf.length := by omega
      cases v with
      | num i =>
        have hin' : (decide (bitfieldMin sgn w ≤ i) &&
            decide (i ≤ bitfieldMax sgn w)) = true := hin
        rw [Bool.and_eq_true, decide_eq_true_eq, decide_eq_true_eq] at hin'
        obtain ⟨hlo, hhi⟩ := hin'
        obtain ⟨buf1, henc, hlen1, hb1, hframe_j, hframe_k, hread⟩ :=
          writeBitFieldM_ok sgn i buf hw1 hpw hlo hhi hbytes hoff
        have hchain1 : RSchema.wfChain (8 * off + pos + w) (8 * buf1.length) r = true := by
          rw [hlen1]
          exact hchain
        obtain ⟨buf', hencR, hlenR, hbR, hframeR, hdecR⟩ :=
          ih data buf1 (8 * off + pos + w) htokr hchain1 hb1 hlk'
        have h1 : encodeFields (RSchema.cons n (RField.bits sgn w off pos) r) data buf =
            encodeFields r data buf1 := by
          rw [encodeFields, hv]
          show (match writeBitFieldM sgn w off pos i buf with
            | Except.error e => Except.error e
            | Except.ok b2 => encodeFields r data b2) = encodeFields r data buf1
          rw [henc]
        have hread' : readBitFieldM sgn w off pos buf' = i := by
          rw [← hread]
          apply readBitFieldM_congr
          intro k hk1 hk2
          have hk8 : k < 8 := by omega
          have hfr := hframeR (8 * off + k) (by omega)
          rwa [bitAt_byte buf' off k hk8, bitAt_byte buf1 off k hk8] at hfr
        refine ⟨buf', by rw [h1]; exact hencR, by rw [hlenR, hlen1], hbR, ?_, ?_⟩
        · intro i2 hi2
          rw [hframeR i2 (by omega), bitAt, bitAt]
          by_cases hj : i2 / 8 = off
          · rw [hj]
            apply hframe_k
            left
            have := Nat.div_add_mod i2 8
            omega
          · rw [hframe_j (i2 / 8) hj]
        · rw [decodeFields,
            show decodeField (RField.bits sgn w off pos) buf' =
              .ok (.num (readBitFieldM sgn w off pos buf')) from rfl, hread']
          show (match decodeFields r buf' with
            | Except.error e => Except.error e
            | Except.ok vals => Except.ok ((n, JSVal.num i) :: vals)) =
            Except.ok (lookups (RSchema.cons n (RField.bits sgn w off pos) r) data)
          rw [hdecR]
          show Except.ok ((n, JSVal.num i) :: lookups r data) =
            Except.ok ((n, (data.lookup n).getD (JSVal.num 0)) :: lookups r data)
          rw [hv]
          rfl
      | big i => exact Bool.noConfusion (show false = true from hin)
      | str b => exact Bool.noConfusion (show false = true from hin)
      | obj fs => exact Bool.noConfusion (show false = true from hin)
      | nullV => exact Bool.noConfusion (show false = true from hin)
      | undef => exact Bool.noConfusion (show false = true from hin)
      | boolV b => exact Bool.noConfusion (show false = true from hin)
      | fn s2 => exact Bool.noConfusion (show false = true from hin)
    | prim p sz off =>
      have htokr : allTokensB r = true := by
        have h' : (true && allTokensB r) = true := htok
        rwa [Bool.true_and] at h'
      have hsz : sz = p.byteSize := beq_iff_eq.mp (show (sz == p.byteSize) = true from hfwf)
      subst hsz
      rw [RField.endBit] at hend
      have hc' : c ≤ 8 * off := hc
      have hfit : off + p.byteSize ≤ buf.length := by omega
      have hbs1 := p.byteSize_pos
      cases v with
      | num i =>
        have hin' : ((!p.isBig && decide (primMin p ≤ i)) &&
            decide (i ≤ primMax p)) = true := hin
        rw [Bool.and_eq_true, Bool.and_eq_true, decide_eq_true_eq, decide_eq_true_eq,
          Bool.not_eq_true'] at hin'
        obtain ⟨⟨hbig, hlo⟩, hhi⟩ := hin'
        obtain ⟨buf1, henc, hlen1, hb1, hframe_j, hreadP⟩ :=
          writePrimM_ok p i buf hlo hhi hbytes hfit
        have hchain1 : RSchema.wfChain (8 * (off + p.byteSize)) (8 * buf1.length) r
            = true := by
          rw [hlen1]
          exact hchain
        obtain ⟨buf', hencR, hlenR, hbR, hframeR, hdecR⟩ :=
          ih data buf1 (8 * (off + p.byteSize)) htokr hchain1 hb1 hlk'
        have hwrite : writeFieldM p off (JSVal.num i) buf = writePrimM p off i buf := by
          rw [writeFieldM_eq, hbig, if_neg Bool.false_ne_true]
        have h1 : encodeFields (RSchema.cons n (RField.prim p p.byteSize off) r) data buf =
            encodeFields r data buf1 := by
          rw [encodeFields, hv]
          show (match writeFieldM p off (JSVal.num i) buf with
            | Except.error e => Except.error e
            | Except.ok b2 => encodeFields r data b2) = encodeFields r data buf1
          rw [hwrite, henc]
        have hreadP' : readPrimM p off buf' = .ok i := by
          rw [← hreadP]
          apply readPrimM_congr p off (by rw [hlenR]) (by rw [hlenR, hlen1]; exact hfit)
          intro j hj1 hj2
          apply byteAt_congr_of_bitAt j hbR hb1
          intro k hk
          exact hframeR (8 * j + k) (by omega)
        refine ⟨buf', by rw [h1]; exact hencR, by rw [hlenR, hlen1], hbR, ?_, ?_⟩
        · intro i2 hi2
          rw [hframeR i2 (by omega), bitAt, bitAt,
            hframe_j (i2 / 8) (by left; omega)]
        · rw [decodeFields,
            show decodeField (RField.prim p p.byteSize off) buf' =
              (match readPrimM p off buf' with
               | Except.error e => Except.error e
               | Except.ok j => Except.ok (if p.isBig then JSVal.big j else JSVal.num j))
              from rfl, hreadP']
          show (match decodeFields r buf' with
            | Except.error e => Except.error e
            | Except.ok vals =>
              Except.ok ((n, if p.isBig = true then JSVal.big i else JSVal.num i) :: vals)) =
            Except.ok (lookups (RSchema.cons n (RField.prim p p.byteSize off) r) data)
          rw [hdecR, hbig, if_neg Bool.false_ne_true]
          show Except.ok ((n, JSVal.num i) :: lookups r data) =
            Except.ok ((n, (data.lookup n).getD (JSVal.num 0)) :: lookups r data)
          rw [hv]
          rfl
      | big i =>
        have hin' : ((p.isBig && decide (primMin p ≤ i)) &&
            decide (i ≤ primMax p)) = true := hin
        rw [Bool.and_eq_true, Bool.and_eq_true, decide_eq_true_eq,
          decide_eq_true_eq] at hin'
        obtain ⟨⟨hbig, hlo⟩, hhi⟩ := hin'
        obtain ⟨buf1, henc, hlen1, hb1, hframe_j, hreadP⟩ :=
          writePrimM_ok p i buf hlo hhi hbytes hfit
        have hchain1 : RSchema.wfChain (8 * (off + p.byteSize)) (8 * buf1.length) r
            = true := by
          rw [hlen1]
          exact hchain
        obtain ⟨buf', hencR, hlenR, hbR, hframeR, hdecR⟩ :=
          ih data buf1 (8 * (off + p.byteSize)) htokr hchain1 hb1 hlk'
        have hwrite : writeFieldM p off (JSVal.big i) buf = writePrimM p off i buf := by
          rw [writeFieldM_eq, hbig, if_pos rfl]
        have h1 : encodeFields (RSchema.cons n (RField.prim p p.byteSize off) r) data buf =
            encodeFields r data buf1 := by
          rw [encodeFields, hv]
          show (match writeFieldM p off (JSVal.big i) buf with
            | Except.error e => Except.error e
            | Except.ok b2 => encodeFields r data b2) = encodeFields r data buf1
          rw [hwrite, henc]
        have hreadP' : readPrimM p off buf' = .ok i := by
          rw [← hreadP]
          apply readPrimM_congr p off (by rw [hlenR]) (by rw [hlenR, hlen1]; exact hfit)
          intro j hj1 hj2
          apply byteAt_congr_of_bitAt j hbR hb1
          intro k hk
          exact hframeR (8 * j + k) (by omega)
        refine ⟨buf', by rw [h1]; exact hencR, by rw [hlenR, hlen1], hbR, ?_, ?_⟩
        · intro i2 hi2
          rw [hframeR i2 (by omega), bitAt, bitAt,
            hframe_j (i2 / 8) (by left; omega)]
        · rw [decodeFields,
            show decodeField (RField.prim p p.byteSize off) buf' =
              (match readPrimM p off buf' with
               | Except.error e => Except.error e
               | Except.ok j => Except.ok (if p.isBig then JSVal.big j else JSVal.num j))
              from rfl, hreadP']
          show (match decodeFields r buf' with
            | Except.error e => Except.error e
            | Except.ok vals =>
              Except.ok ((n, if p.isBig = true then JSVal.big i else JSVal.num i) :: vals)) =
            Except.ok (lookups (RSchema.cons n (RField.prim p p.byteSize off) r) data)
          rw [hdecR, hbig, if_pos rfl]
          show Except.ok ((n, JSVal.big i) :: lookups r data) =
            Except.ok ((n, (data.lookup n).getD (JSVal.num 0)) :: lookups r data)
          rw [hv]
          rfl
      | str b => exact Bool.noConfusion (show false = true from hin)
      | obj fs => exact Bool.noConfusion (show false = true from hin)
      | nullV => exact Bool.noConfusion (show false = true from hin)
      | undef => exact Bool.noConfusion (show false = true from hin)
      | boolV b => exact Bool.noConfusion (show false = true from hin)
      | fn s2 => exact Bool.noConfusion (show false = true from hin)
    | strF sz off => exact Bool.noConfusion (show false = true from htok)
    | nested sub ss off => exact Bool.noConfusion (show false = true from htok)

/-- C1: for every schema given by well-formed field tokens with distinct
field names and every record populating all declared fields, in
declaration order, with in-range values of the declared runtime kinds,
`toBuffer` succeeds with a buffer of the layout size and `toObject` on
that buffer returns a record equal to the original (in particular signed
bitfields sign-extend back: −1 in a 4-bit signed field decodes to −1, not
15, as the witness instantiates). -/
theorem claim1_roundtrip :
    ∀ (ts : List (String × String)) (m : StructModel) (data : List (String × JSVal)),
      parseStruct (tokenDescs ts) = .ok m →
      descsOK (tokenDescs ts) = true →
      (ts.map Prod.fst).Nodup →
      alignedB m.schema data = true →
      ∃ buf, toBufferM m (.obj data) = .ok buf ∧ buf.length = m.size ∧
        toObjectM m buf = .ok (.obj data) := by
  intro ts m data hp hOK hnd hal
  have hwf : RSchema.wfChain 0 (8 * m.size) m.schema = true := parseStruct_wf hp hOK
  have htok : allTokensB m.schema = true := parseStruct_tokens hp
  have hnames : m.schema.names = ts.map Prod.fst := by
    rw [parseStruct_names hp, tokenDescs, List.map_map]
    rfl
  have hnd' : m.schema.names.Nodup := by
    rw [hnames]
    exact hnd
  have hlk := aligned_lookup m.schema data hal hnd'
  have hbytes : ∀ b ∈ List.replicate m.size 0, b < 256 := by
    intro b hb
    rw [List.eq_of_mem_replicate hb]
    omega
  have hlen0 : (List.replicate m.size 0).length = m.size := List.length_replicate ..
  obtain ⟨buf', henc, hlen, hb', hframe, hdec⟩ :=
    encodeFields_sound m.schema data (List.replicate m.size 0) 0 htok
      (by rw [hlen0]; exact hwf) hbytes hlk
  refine ⟨buf', ?_, by rw [hlen, hlen0], ?_⟩
  · rw [toBufferM]
    exact henc
  · rw [toObjectM, hdec, lookups_aligned m.schema data hal hnd']

/-- Witness for C1 at the one-field schema `{ s: "Int8:4" }` with record
`{ s: -1 }`: the 4-bit signed field encoded with −1 decodes back to −1
(not 15). -/
theorem claim1_witness :
    ∃ buf, toBufferM ⟨.cons "s" (.bits true 4 0 0) .nil, 1⟩
        (.obj [("s", .num (-1))]) = .ok buf ∧ buf.length = 1 ∧
      toObjectM ⟨.cons "s" (.bits true 4 0 0) .nil, 1⟩ buf =
        .ok (.obj [("s", .num (-1))]) :=
  claim1_roundtrip [("s", "Int8:4")]
    ⟨.cons "s" (.bits true 4 0 0) .nil, 1⟩ [("s", .num (-1))]
    rfl (by decide) (by decide) (by decide)

/-! ### Missing-field tolerance (C7) -/

theorem allTokensB_rest : ∀ {n : String} {f : RField} {r : RSchema},
    allTokensB (.cons n f r) = true → allTokensB r = true := by
  intro n f r h
  cases f with
  | prim p sz off =>
    have h' : (true && allTokensB r) = true := h
    rwa [Bool.true_and] at h'
  | bits sgn w off pos =>
    have h' : (true && allTokensB r) = true := h
    rwa [Bool.true_and] at h'
  | strF sz off => exact Bool.noConfusion (show false = true from h)
  | nested sub ss off => exact Bool.noConfusion (show false = true from h)

theorem presentOKB_spec : ∀ {s : RSchema} {data : List (String × JSVal)},
    presentOKB s data = true →
    (∀ nf ∈ s.toList, ∀ v, data.lookup nf.1 = some v → inRangeB nf.2 v = true) ∧
    (∀ nf ∈ s.toList, data.lookup nf.1 = none → protoKeys.contains nf.1 = false) := by
  intro s data h
  rw [presentOKB, List.all_eq_true] at h
  constructor
  · intro nf hm v hv
    have h1 : (match data.lookup nf.1 with
      | some v => inRangeB nf.2 v
      | none => !(protoKeys.contains nf.1)) = true := h nf hm
    rw [hv] at h1
    exact h1
  · intro nf hm hnone
    have h1 : (match data.lookup nf.1 with
      | some v => inRangeB nf.2 v
      | none => !(protoKeys.contains nf.1)) = true := h nf hm
    rw [hnone] at h1
    have h2 : (!protoKeys.contains nf.1) = true := h1
    rw [Bool.not_eq_true'] at h2
    exact h2

/-- Encoding a record that populates some of the token fields of a layout
in range, and whose absent declared fields have non-inherited names,
succeeds, preserves the buffer length and byte bounds, leaves every bit
below the chain cursor untouched, and leaves the bit span of every absent
field exactly as it was in the input buffer. -/
theorem encodeFields_partial : ∀ (s : RSchema) (data : List (String × JSVal))
    (buf : List Nat) (c : Nat),
    allTokensB s = true →
    RSchema.wfChain c (8 * buf.length) s = true →
    (∀ b ∈ buf, b < 256) →
    (∀ nf ∈ s.toList, ∀ v, data.lookup nf.1 = some v → inRangeB nf.2 v = true) →
    (∀ nf ∈ s.toList, data.lookup nf.1 = none → protoKeys.contains nf.1 = false) →
    ∃ buf', encodeFields s data buf = .ok buf' ∧
      buf'.length = buf.length ∧ (∀ b ∈ buf', b < 256) ∧
      (∀ i, i < c → bitAt buf' i = bitAt buf i) ∧
      (∀ nf ∈ s.toList, data.lookup nf.1 = none →
        ∀ i, nf.2.startBit ≤ i → i < nf.2.endBit → bitAt buf' i = bitAt buf i) := by
  intro s
  induction s using RSchema.inductionOn with
  | h0 =>
    intro data buf c _ _ hbytes _ _
    exact ⟨buf, rfl, rfl, hbytes, fun i _ => rfl,
      fun nf hnf => absurd hnf (List.not_mem_nil nf)⟩
  | h1 n f r ih =>
    intro data buf c htok hwf hbytes hin habs
    have htokr : allTokensB r = true := allTokensB_rest htok
    have hwf' : (decide (c ≤ f.startBit) && RField.wfB f &&
        RSchema.wfChain f.endBit (8 * buf.length) r) = true := hwf
    rw [Bool.and_eq_true, Bool.and_eq_true, decide_eq_true_eq] at hwf'
    obtain ⟨⟨hc, hfwf⟩, hchain⟩ := hwf'
    have hin' : ∀ nf ∈ r.toList, ∀ v, data.lookup nf.1 = some v →
        inRangeB nf.2 v = true := fun nf hm => hin nf (List.mem_cons_of_mem _ hm)
    have habs' : ∀ nf ∈ r.toList, data.lookup nf.1 = none →
        protoKeys.contains nf.1 = false := fun nf hm => habs nf (List.mem_cons_of_mem _ hm)
    have hend := wfChain_le r f.endBit (8 * buf.length) hchain
    match hl : data.lookup n with
    | none =>
      have hpr : protoKeys.contains n = false := habs (n, f) (List.mem_cons_self _ _) hl
      obtain ⟨buf', hencR, hlenR, hbR, hframeR, habsR⟩ :=
        ih data buf f.endBit htokr hchain hbytes hin' habs'
      have h1 : encodeFields (RSchema.cons n f r) data buf = encodeFields r data buf := by
        rw [encodeFields, hl]
        show (if protoKeys.contains n = true then
            (match encodeField n f (protoMember n) buf with
             | Except.error e => Except.error e
             | Except.ok b2 => encodeFields r data b2)
          else encodeFields r data buf) = encodeFields r data buf
        rw [hpr, if_neg Bool.false_ne_true]
      refine ⟨buf', by rw [h1]; exact hencR, hlenR, hbR, ?_, ?_⟩
      · intro i hi
        refine hframeR i ?_
        have := f.startBit_le_endBit
        omega
      · intro nf hnf hnone i hi1 hi2
        rcases List.mem_cons.mp (show nf ∈ (n, f) :: r.toList from hnf) with rfl | hm
        · exact hframeR i hi2
        · exact habsR nf hm hnone i hi1 hi2
    | some v =>
      have hinv : inRangeB f v = true := hin (n, f) (List.mem_cons_self _ _) v hl
      cases f with
      | bits sgn w off pos =>
        have hfwf' : (decide (1 ≤ w) && decide (pos + w ≤ 8)) = true := hfwf
        rw [Bool.and_eq_true, decide_eq_true_eq, decide_eq_true_eq] at hfwf'
        obtain ⟨hw1, hpw⟩ := hfwf'
        rw [RField.endBit] at hend
        have hc' : c ≤ 8 * off + pos := hc
        have hoff : off < buf.length := by omega
        cases v with
        | num i =>
          have hin2 : (decide (bitfieldMin sgn w ≤ i) &&
              decide (i ≤ bitfieldMax sgn w)) = true := hinv
          rw [Bool.and_eq_true, decide_eq_true_eq, decide_eq_true_eq] at hin2
          obtain ⟨hlo, hhi⟩ := hin2
          obtain ⟨buf1, henc, hlen1, hb1, hframe_j, hframe_k, hread⟩ :=
            writeBitFieldM_ok sgn i buf hw1 hpw hlo hhi hbytes hoff
          have hchain1 : RSchema.wfChain (8 * off + pos + w) (8 * buf1.length) r = true := by
            rw [hlen1]
            exact hchain
          obtain ⟨buf', hencR, hlenR, hbR, hframeR, habsR⟩ :=
            ih data buf1 (8 * off + pos + w) htokr hchain1 hb1 hin' habs'
          have h1 : encodeFields (RSchema.cons n (RField.bits sgn w off pos) r) data buf =
              encodeFields r data buf1 := by
            rw [encodeFields, hl]
            show (match writeBitFieldM sgn w off pos i buf with
              | Except.error e => Except.error e
              | Except.ok b2 => encodeFields r data b2) = encodeFields r data buf1
            rw [henc]
          have hstep : ∀ i2, i2 < 8 * off + pos ∨ 8 * off + pos + w ≤ i2 →
              bitAt buf1 i2 = bitAt buf i2 := by
            intro i2 hi2
            rw [bitAt, bitAt]
            by_cases hj : i2 / 8 = off
            · rw [hj]
              apply hframe_k
              have := Nat.div_add_mod i2 8
              rcases hi2 with h2 | h2
              · left; omega
              · right; omega
            · rw [hframe_j (i2 / 8) hj]
          refine ⟨buf', by rw [h1]; exact hencR, by rw [hlenR, hlen1], hbR, ?_, ?_⟩
          · intro i2 hi2
            rw [hframeR i2 (by omega), hstep i2 (by omega)]
          · intro nf hnf hnone i2 hi1 hi2
            rcases List.mem_cons.mp (show nf ∈ (n, RField.bits sgn w off pos) :: r.toList
                from hnf) with rfl | hm
            · rw [hl] at hnone
              exact Option.noConfusion hnone
            · have hspan := (wfChain_mem r _ _ hchain nf hm).1
              rw [habsR nf hm hnone i2 hi1 hi2]
              refine hstep i2 (Or.inr ?_)
              have h3 : (RField.bits sgn w off pos).endBit ≤ nf.2.startBit := hspan
              rw [RField.endBit] at h3
              omega
        | big i => exact Bool.noConfusion (show false = true from hinv)
        | str b => exact Bool.noConfusion (show false = true from hinv)
        | obj fs => exact Bool.noConfusion (show false = true from hinv)
        | nullV => exact Bool.noConfusion (show false = true from hinv)
        | undef => exact Bool.noConfusion (show false = true from hinv)
        | boolV b => exact Bool.noConfusion (show false = true from hinv)
        | fn s2 => exact Bool.noConfusion (show false = true from hinv)
      | prim p sz off =>
        have hsz : sz = p.byteSize := beq_iff_eq.mp (show (sz == p.byteSize) = true from hfwf)
        subst hsz
        rw [RField.endBit] at hend
        have hc' : c ≤ 8 * off := hc
        have hfit : off + p.byteSize ≤ buf.length := by omega
        have hbs1 := p.byteSize_pos
        cases v with
        | num i =>
          have hin2 : ((!p.isBig && decide (primMin p ≤ i)) &&
              decide (i ≤ primMax p)) = true := hinv
          rw [Bool.and_eq_true, Bool.and_eq_true, decide_eq_true_eq, decide_eq_true_eq,
            Bool.not_eq_true'] at hin2
          obtain ⟨⟨hbig, hlo⟩, hhi⟩ := hin2
          obtain ⟨buf1, henc, hlen1, hb1, hframe_j, hreadP⟩ :=
            writePrimM_ok p i buf hlo hhi hbytes hfit
          have hchain1 : RSchema.wfChain (8 * (off + p.byteSize)) (8 * buf1.length) r
              = true := by
            rw [hlen1]
            exact hchain
          obtain ⟨buf', hencR, hlenR, hbR, hframeR, habsR⟩ :=
            ih data buf1 (8 * (off + p.byteSize)) htokr hchain1 hb1 hin' habs'
          have hwrite : writeFieldM p off (JSVal.num i) buf = writePrimM p off i buf := by
            rw [writeFieldM_eq, hbig, if_neg Bool.false_ne_true]
          have h1 : encodeFields (RSchema.cons n (RField.prim p p.byteSize off) r) data buf =
              encodeFields r data buf1 := by
            rw [encodeFields, hl]
            show (match writeFieldM p off (JSVal.num i) buf with
              | Except.error e => Except.error e
              | Except.ok b2 => encodeFields r data b2) = encodeFields r data buf1
            rw [hwrite, henc]
          have hstep : ∀ i2, i2 < 8 * off ∨ 8 * (off + p.byteSize) ≤ i2 →
              bitAt buf1 i2 = bitAt buf i2 := by
            intro i2 hi2
            rw [bitAt, bitAt, hframe_j (i2 / 8) (by
              rcases hi2 with h2 | h2
              · left; omega
              · right; omega)]
          refine ⟨buf', by rw [h1]; exact hencR, by rw [hlenR, hlen1], hbR, ?_, ?_⟩
          · intro i2 hi2
            rw [hframeR i2 (by omega), hstep i2 (by omega)]
          · intro nf hnf hnone i2 hi1 hi2
            rcases List.mem_cons.mp (show nf ∈ (n, RField.prim p p.byteSize off) :: r.toList
                from hnf) with rfl | hm
            · rw [hl] at hnone
              exact Option.noConfusion hnone
            · have hspan := (wfChain_mem r _ _ hchain nf hm).1
              rw [habsR nf hm hnone i2 hi1 hi2]
              refine hstep i2 (Or.inr ?_)
              have h3 : (RField.prim p p.byteSize off).endBit ≤ nf.2.startBit := hspan
              rw [RField.endBit] at h3
              omega
        | big i =>
          have hin2 : ((p.isBig && decide (primMin p ≤ i)) &&
              decide (i ≤ primMax p)) = true := hinv
          rw [Bool.and_eq_true, Bool.and_eq_true, decide_eq_true_eq,
            decide_eq_true_eq] at hin2
          obtain ⟨⟨hbig, hlo⟩, hhi⟩ := hin2
          obtain ⟨buf1, henc, hlen1, hb1, hframe_j, hreadP⟩ :=
            writePrimM_ok p i buf hlo hhi hbytes hfit
          have hchain1 : RSchema.wfChain (8 * (off + p.byteSize)) (8 * buf1.length) r
              = true := by
            rw [hlen1]
            exact hchain
          obtain ⟨buf', hencR, hlenR, hbR, hframeR, habsR⟩ :=
            ih data buf1 (8 * (off + p.byteSize)) htokr hchain1 hb1 hin' habs'
          have hwrite : writeFieldM p off (JSVal.big i) buf = writePrimM p off i buf := by
            rw [writeFieldM_eq, hbig, if_pos rfl]
          have h1 : encodeFields (RSchema.cons n (RField.prim p p.byteSize off) r) data buf =
              encodeFields r data buf1 := by
            rw [encodeFields, hl]
            show (match writeFieldM p off (JSVal.big i) buf with
              | Except.error e => Except.error e
              | Except.ok b2 => encodeFields r data b2) = encodeFields r data buf1
            rw [hwrite, henc]
          have hstep : ∀ i2, i2 < 8 * off ∨ 8 * (off + p.byteSize) ≤ i2 →
              bitAt buf1 i2 = bitAt buf i2 := by
            intro i2 hi2
            rw [bitAt, bitAt, hframe_j (i2 / 8) (by
              rcases hi2 with h2 | h2
              · left; omega
              · right; omega)]
          refine ⟨buf', by rw [h1]; exact hencR, by rw [hlenR, hlen1], hbR, ?_, ?_⟩
          · intro i2 hi2
            rw [hframeR i2 (by omega), hstep i2 (by omega)]
          · intro nf hnf hnone i2 hi1 hi2
            rcases List.mem_cons.mp (show nf ∈ (n, RField.prim p p.byteSize off) :: r.toList
                from hnf) with rfl | hm
            · rw [hl] at hnone
              exact Option.noConfusion hnone
            · have hspan := (wfChain_mem r _ _ hchain nf hm).1
              rw [habsR nf hm hnone i2 hi1 hi2]
              refine hstep i2 (Or.inr ?_)
              have h3 : (RField.prim p p.byteSize off).endBit ≤ nf.2.startBit := hspan
              rw [RField.endBit] at h3
              omega
        | str b => exact Bool.noConfusion (show false = true from hinv)
        | obj fs => exact Bool.noConfusion (show false = true from hinv)
        | nullV => exact Bool.noConfusion (show false = true from hinv)
        | undef => exact Bool.noConfusion (show false = true from hinv)
        | boolV b => exact Bool.noConfusion (show false = true from hinv)
        | fn s2 => exact Bool.noConfusion (show false = true from hinv)
      | strF sz off => exact Bool.noConfusion (show false = true from htok)
      | nested sub ss off => exact Bool.noConfusion (show false = true from htok)

/-- C7 fails on the code as stated: a declared field named after an
`Object.prototype` property is never seen as absent, because the guard
`if (!(fieldName in data)) continue` consults the prototype chain.  For
the layout of `{ toString: "UInt8" }`, encoding the empty record — which
omits the declared field — does not skip the field and leave its byte
zero: `data['toString']` yields the inherited function and the primitive
writer raises its type error instead. -/
theorem claim7_counterexample :
    parseStruct [("toString", .token "UInt8")] =
      .ok ⟨.cons "toString" (.prim .UInt8 1 0) .nil, 1⟩ ∧
    toBufferM ⟨.cons "toString" (.prim .UInt8 1 0) .nil, 1⟩ (.obj []) =
      .error "Expected a number for field \"UInt8\", but received function" :=
  ⟨rfl, rfl⟩

/-- C7 (amended): `toBuffer` always returns a buffer of exactly the layout
size; for a layout of field tokens, a record whose present fields are in
range and whose absent declared fields have names that a plain object does
not inherit encodes without error and leaves every absent field's bits
zero; and on any buffer at least as long as the layout, `toObject` returns
a record with exactly one entry per declared field, whatever the buffer's
contents.  (A declared field named after an `Object.prototype` property is
never absent under the `in` guard — see the counterexample.) -/
theorem claim7_amended_buffer_shape :
    (∀ (m : StructModel) (v : JSVal) (buf : List Nat),
        toBufferM m v = .ok buf → buf.length = m.size) ∧
    (∀ (ts : List (String × String)) (m : StructModel) (data : List (String × JSVal)),
        parseStruct (tokenDescs ts) = .ok m → descsOK (tokenDescs ts) = true →
        presentOKB m.schema data = true →
        ∃ buf, toBufferM m (.obj data) = .ok buf ∧ buf.length = m.size ∧
          ∀ nf ∈ m.schema.toList, data.lookup nf.1 = none →
            ∀ i, nf.2.startBit ≤ i → i < nf.2.endBit → bitAt buf i = false) ∧
    (∀ (descs : List (String × FieldDesc)) (m : StructModel) (buf : List Nat),
        parseStruct descs = .ok m → descsOK descs = true → m.size ≤ buf.length →
        ∃ vals, toObjectM m buf = .ok (.obj vals) ∧
          vals.map Prod.fst = m.schema.names) := by
  refine ⟨?_, ?_, ?_⟩
  · intro m v buf h
    match v, h with
    | .obj data, h =>
      rw [toBufferM] at h
      rw [encodeFields_length m.schema data _ buf h]
      simp
  · intro ts m data hp hOK hpres
    have hwf : RSchema.wfChain 0 (8 * m.size) m.schema = true := parseStruct_wf hp hOK
    have htok : allTokensB m.schema = true := parseStruct_tokens hp
    obtain ⟨hin, habs⟩ := presentOKB_spec hpres
    have hbytes : ∀ b ∈ List.replicate m.size 0, b < 256 := by
      intro b hb
      rw [List.eq_of_mem_replicate hb]
      omega
    have hlen0 : (List.replicate m.size 0).length = m.size := List.length_replicate ..
    obtain ⟨buf', henc, hlen, hb', hframe, habs'⟩ :=
      encodeFields_partial m.schema data (List.replicate m.size 0) 0 htok
        (by rw [hlen0]; exact hwf) hbytes hin habs
    refine ⟨buf', by rw [toBufferM]; exact henc, by rw [hlen, hlen0], ?_⟩
    intro nf hnf hnone i hi1 hi2
    rw [habs' nf hnf hnone i hi1 hi2, bitAt, byteAt_replicate_zero, Nat.zero_testBit]
  · intro descs m buf hp hOK hlen
    have hwf : RSchema.wfChain 0 (8 * m.size) m.schema = true := parseStruct_wf hp hOK
    have hwf' := wfChain_mono (show 8 * m.size ≤ 8 * buf.length by omega) m.schema 0 hwf
    obtain ⟨vals, hvals, hnames⟩ := decodeFields_total m.schema buf 0 hwf'
    exact ⟨vals, by rw [toObjectM, hvals], hnames⟩

/-- Witness for C7 (amended) at the C2 schema with only `a` populated:
encoding succeeds at the layout size and the absent fields `b` and `c`
keep all their bits zero. -/
theorem claim7_witness :
    ∃ buf, toBufferM ⟨.cons "a" (.bits false 4 0 0) (.cons "b" (.bits false 4 0 4)
        (.cons "c" (.prim .UInt16LE 2 1) .nil)), 3⟩ (.obj [("a", .num 3)]) = .ok buf ∧
      buf.length = 3 ∧
      ∀ nf ∈ (RSchema.cons "a" (.bits false 4 0 0) (.cons "b" (.bits false 4 0 4)
          (.cons "c" (.prim .UInt16LE 2 1) .nil))).toList,
        List.lookup nf.1 [("a", JSVal.num 3)] = none →
        ∀ i, nf.2.startBit ≤ i → i < nf.2.endBit → bitAt buf i = false :=
  claim7_amended_buffer_shape.2.1
    [("a", "UInt8:4"), ("b", "UInt8:4"), ("c", "UInt16LE")]
    ⟨.cons "a" (.bits false 4 0 0) (.cons "b" (.bits false 4 0 4)
      (.cons "c" (.prim .UInt16LE 2 1) .nil)), 3⟩ [("a", .num 3)]
    rfl (by decide) (by decide)

end XStruct
